import Mathlib

/-!
# Verification of the custom-language transpiler engine

Shallow embedding of the text-rewrite engine of `transpiler.py`
(class `Transpiler`): the string-literal splitter `_split_by_strings`,
the keyword substitution engine (`_prepare_patterns`,
`_apply_keyword_replacements`), the special-pattern engine
(`_apply_special_patterns`, `_apply_reverse_special_patterns`), the
syntax and indentation normalizer (`_fix_syntax_issues`,
`_fix_indentation`) and the drivers `to_python` / `from_python`,
together with the default mapping built by `create_default_mapping`.

Text is modelled as `List Char`.  Python `re` behaviour relevant here
(verified against CPython 3.11): `re.split` with a capturing group
returns alternating non-match / match parts whose concatenation is the
input; a replacement template is parsed eagerly, so an invalid escape
such as `\s` in a replacement string raises `re.error` even when the
pattern has no match in the subject; `\b` matches where exactly one
side is a word character (`[A-Za-z0-9_]` for the ASCII texts involved).
Fallible operations return `Except Unit _`, `.error ()` standing for a
raised `re.error`.
-/

set_option maxRecDepth 100000

namespace Transpiler

/-- `List Char` is the working representation of Python `str`. -/
abbrev Str := List Char

/-- Characters of a Lean string literal, used to spell concrete texts. -/
def strOf (s : String) : Str := s.data

/-- The single-quote character. -/
def squote : Char := Char.ofNat 39

/-- The double-quote character. -/
def dquote : Char := Char.ofNat 34

/-- The backslash character. -/
def bslash : Char := Char.ofNat 92

/-- The newline character. -/
def nlChar : Char := Char.ofNat 10

/-- Python regex `\w` / `str.isidentifier`-style word character, for the
ASCII texts this engine handles: alphanumeric or underscore. -/
def isWordChar (c : Char) : Bool := c.isAlphanum || c = '_'

/-- ASCII whitespace as recognised by Python `\s` and `str.lstrip`:
space, tab, newline, carriage return, vertical tab, form feed. -/
def isSpaceChar (c : Char) : Bool :=
  c = ' ' || c = Char.ofNat 9 || c = nlChar || c = Char.ofNat 13 ||
  c = Char.ofNat 11 || c = Char.ofNat 12

/-! ## String-literal splitter (`_split_by_strings`, lines 156-174)

The Python code splits on the regex
`('(?:\\'|[^'])*'|"(?:\\"|[^"])*")`.  `scanLit q` models the
backtracking match of `(?:\\q|[^q])*q` after an opening quote `q`: the
greedy scan consumes `\q` pairs and non-`q` characters and closes at
the first bare `q`; if the end of input is reached instead, the match
backtracks and closes at the quote of the last consumed `\q` pair (the
backslash is re-read as `[^q]`).  It returns the consumed characters
(closing quote included) and the rest. -/

/-- Match the body of a quoted literal after the opening quote `q`.
A lone trailing character that is not `q` can close nothing, so the
one-character case collapses to `none` unless it is the bare quote. -/
def scanLit (q : Char) : Str → Option (Str × Str)
  | [] => none
  | [c] => if c = q then some ([q], []) else none
  | c :: c2 :: cs2 =>
    if c = q then some ([q], c2 :: cs2)
    else if c = bslash && c2 = q then
      match scanLit q cs2 with
      | some (b, r) => some (c :: c2 :: b, r)
      | none => some ([c, c2], cs2)
    else
      match scanLit q (c2 :: cs2) with
      | some (b, r) => some (c :: b, r)
      | none => none

/-- Match a complete string literal (either quote kind, single quote
tried first, like the regex alternation) at the head of the input. -/
def matchString : Str → Option (Str × Str)
  | [] => none
  | c :: cs =>
    if c = squote then
      match scanLit squote cs with
      | some (b, r) => some (c :: b, r)
      | none => none
    else if c = dquote then
      match scanLit dquote cs with
      | some (b, r) => some (c :: b, r)
      | none => none
    else none

/-- Scan for the leftmost string-literal match: returns the non-match
prefix and, if a literal was found, the literal and the rest. -/
def splitAux : Str → Str × Option (Str × Str)
  | [] => ([], none)
  | c :: cs =>
    match matchString (c :: cs) with
    | some (lit, rest) => ([], some (lit, rest))
    | none =>
      let p := splitAux cs
      (c :: p.1, p.2)

theorem scanLit_eq (q : Char) :
    ∀ n s, s.length ≤ n → ∀ b r, scanLit q s = some (b, r) → b ++ r = s ∧ b ≠ [] := by
  intro n
  induction n with
  | zero =>
    intro s hlen b r h
    have : s = [] := by cases s <;> simp_all
    subst this
    simp [scanLit] at h
  | succ n ih =>
    intro s hlen b r h
    match s with
    | [] => simp [scanLit] at h
    | [c] =>
      rw [scanLit] at h
      by_cases h1 : c = q
      · rw [if_pos h1] at h
        cases h
        exact ⟨by simp [h1], by simp⟩
      · rw [if_neg h1] at h
        cases h
    | c :: c2 :: cs2 =>
      rw [scanLit] at h
      by_cases h1 : c = q
      · rw [if_pos h1] at h
        cases h
        exact ⟨by simp [h1], by simp⟩
      · rw [if_neg h1] at h
        by_cases h2 : (c = bslash && c2 = q) = true
        · rw [if_pos h2] at h
          simp only [Bool.and_eq_true, decide_eq_true_eq] at h2
          cases hs : scanLit q cs2 with
          | none =>
            rw [hs] at h
            cases h
            exact ⟨by simp [h2.1, h2.2], by simp⟩
          | some p =>
            obtain ⟨b0, r0⟩ := p
            rw [hs] at h
            cases h
            have hl : cs2.length ≤ n := by simp at hlen; omega
            obtain ⟨e1, _⟩ := ih cs2 hl _ _ hs
            exact ⟨by simp [h2.1, h2.2, e1], by simp⟩
        · rw [if_neg h2] at h
          cases hs : scanLit q (c2 :: cs2) with
          | none => rw [hs] at h; cases h
          | some p =>
            obtain ⟨b0, r0⟩ := p
            rw [hs] at h
            cases h
            have hl : (c2 :: cs2).length ≤ n := by
              simp at hlen ⊢; omega
            obtain ⟨e1, _⟩ := ih (c2 :: cs2) hl _ _ hs
            exact ⟨by simp [e1], by simp⟩

theorem matchString_eq :
    ∀ s b r, matchString s = some (b, r) → b ++ r = s ∧ b ≠ [] := by
  intro s b r h
  match s with
  | [] => simp [matchString] at h
  | c :: cs =>
    rw [matchString] at h
    by_cases h1 : c = squote
    · rw [if_pos h1] at h
      cases hs : scanLit squote cs with
      | none => rw [hs] at h; cases h
      | some p =>
        obtain ⟨b0, r0⟩ := p
        rw [hs] at h
        cases h
        obtain ⟨e1, _⟩ := scanLit_eq squote cs.length cs le_rfl _ _ hs
        exact ⟨by simp [e1], by simp⟩
    · rw [if_neg h1] at h
      by_cases h2 : c = dquote
      · rw [if_pos h2] at h
        cases hs : scanLit dquote cs with
        | none => rw [hs] at h; cases h
        | some p =>
          obtain ⟨b0, r0⟩ := p
          rw [hs] at h
          cases h
          obtain ⟨e1, _⟩ := scanLit_eq dquote cs.length cs le_rfl _ _ hs
          exact ⟨by simp [e1], by simp⟩
      · rw [if_neg h2] at h
        cases h

theorem splitAux_none : ∀ s pre, splitAux s = (pre, none) → pre = s := by
  intro s
  induction s with
  | nil => intro pre h; simp [splitAux] at h; simp [h]
  | cons c cs ih =>
    intro pre h
    rw [splitAux] at h
    match hm : matchString (c :: cs) with
    | some (lit, rest) => rw [hm] at h; cases h
    | none =>
      rw [hm] at h
      simp at h
      obtain ⟨h1, h2⟩ := h
      have := ih (splitAux cs).1 (by rw [← h2])
      simp [← h1, this]

theorem splitAux_some :
    ∀ s pre lit rest, splitAux s = (pre, some (lit, rest)) →
      pre ++ lit ++ rest = s ∧ lit ≠ [] := by
  intro s
  induction s with
  | nil => intro pre lit rest h; simp [splitAux] at h
  | cons c cs ih =>
    intro pre lit rest h
    rw [splitAux] at h
    match hm : matchString (c :: cs) with
    | some (l0, r0) =>
      rw [hm] at h
      cases h
      have := matchString_eq (c :: cs) _ _ hm
      exact ⟨by simpa using this.1, this.2⟩
    | none =>
      rw [hm] at h
      simp at h
      obtain ⟨h1, h2⟩ := h
      match hp : splitAux cs with
      | (p, o) =>
        rw [hp] at h1 h2
        simp at h1 h2
        have := ih p lit rest (by rw [hp, h2])
        constructor
        · have hx := this.1
          simp [← h1]
          rw [← hx]
          simp
        · exact this.2

theorem splitAux_rest_lt :
    ∀ s pre lit rest, splitAux s = (pre, some (lit, rest)) →
      rest.length < s.length := by
  intro s pre lit rest h
  obtain ⟨h1, h2⟩ := splitAux_some s pre lit rest h
  have hlen : pre.length + (lit.length + rest.length) = s.length := by
    have := congrArg List.length h1
    simpa using this
  have : 1 ≤ lit.length := by
    cases hl : lit with
    | nil => exact absurd hl h2
    | cons a l => simp
  omega

/-- Fuel-indexed worker for `splitByStrings`; the input shrinks by at
least one character per found literal, so `length + 1` fuel always
suffices and the fuel-exhausted branch is unreachable in the wrapper. -/
def splitGo : Nat → Str → List Str
  | 0, code => [code]
  | n + 1, code =>
    match splitAux code with
    | (pre, none) => [pre]
    | (pre, some (lit, rest)) => pre :: lit :: splitGo n rest

/-- `_split_by_strings`: split code into alternating non-string parts
(even indices) and string literals (odd indices); concatenating the
parts in order reproduces the input (the `re.split` contract). -/
def splitByStrings (code : Str) : List Str := splitGo (code.length + 1) code

theorem flatten_splitGo : ∀ n code, (splitGo n code).flatten = code := by
  intro n
  induction n with
  | zero => intro code; simp [splitGo]
  | succ n ih =>
    intro code
    rw [splitGo]
    match hm : splitAux code with
    | (pre, none) => simpa using splitAux_none code pre hm
    | (pre, some (lit, rest)) =>
      have := splitAux_some code _ _ _ hm
      simp only [List.flatten_cons]
      rw [ih]
      simpa using this.1

theorem flatten_splitByStrings (code : Str) :
    (splitByStrings code).flatten = code :=
  flatten_splitGo _ code

/-! ## Keyword substitution engine
(`_prepare_patterns` lines 80-93, `_apply_keyword_replacements` lines
135-154)

`subWord k v s` models `re.sub(r'\b' + re.escape(k) + r'\b', v, s)`:
replace every non-overlapping, leftmost-first occurrence of the literal
`k` that has a word boundary on both sides.  A word boundary holds at a
position iff exactly one of the two adjacent characters is a word
character (the ends of the string count as non-word).  Matches are
found in the original text: scanning resumes after the matched
characters and replacements are never rescanned. -/

/-- Wordness of the first character (`false` at the end of the string),
used for the `\b` test on the right edge of a match. -/
def headIsWord : Str → Bool
  | [] => false
  | c :: _ => isWordChar c

/-- Does the literal `k` match at the current position with `\b` on both
sides?  `pw` is the wordness of the preceding character (`false` at the
start of the string). -/
def bMatchAt (k : Str) (pw : Bool) (s : Str) : Bool :=
  !k.isEmpty && k.isPrefixOf s && (pw != isWordChar (k.headD ' ')) &&
    (isWordChar (k.getLastD ' ') != headIsWord (List.drop k.length s))

/-- Fuel-indexed worker: each step consumes at least one character, so
`length + 1` fuel always suffices. -/
def subWordGo (k v : Str) : Nat → Bool → Str → Str
  | 0, _, s => s
  | _ + 1, _, [] => []
  | n + 1, pw, c :: cs =>
    if bMatchAt k pw (c :: cs) then
      v ++ subWordGo k v n (isWordChar (k.getLastD ' ')) (List.drop k.length (c :: cs))
    else
      c :: subWordGo k v n (isWordChar c) cs

/-- `self.patterns[keyword].sub(self.mapping[keyword], part)`. -/
def subWord (k v s : Str) : Str := subWordGo k v (s.length + 1) false s

/-- Stable insertion used to model Python's stable
`sorted(keys, key=len, reverse=True)`: an element goes in front of the
first already-placed element whose key is not longer (already-placed
elements come later in the original order). -/
def insertLenDesc (p : Str × Str) : List (Str × Str) → List (Str × Str)
  | [] => [p]
  | q :: qs =>
    if q.1.length ≤ p.1.length then p :: q :: qs else q :: insertLenDesc p qs

/-- `sorted(self.mapping.keys(), key=len, reverse=True)` (with each key
paired with its mapped value). -/
def sortByLenDesc (l : List (Str × Str)) : List (Str × Str) :=
  l.foldr insertLenDesc []

/-- Apply the keyword substitutions of an already-sorted table, longest
keyword first, each over the output of the previous one. -/
def applyKeywordsSorted (kws : List (Str × Str)) (s : Str) : Str :=
  kws.foldl (fun acc kv => subWord kv.1 kv.2 acc) s

/-- Map a function over the elements at even indices, leaving the odd
ones (the string literals of `splitByStrings`) untouched. -/
def mapEvenIdx (f : Str → Str) : List Str → List Str
  | [] => []
  | [a] => [f a]
  | a :: b :: rest => f a :: b :: mapEvenIdx f rest

/-- `_apply_keyword_replacements`: split into literal and non-literal
parts, substitute keywords (descending length) in the non-literal parts
only, and rejoin. -/
def applyKeywordReplacements (mapping : List (Str × Str)) (code : Str) : Str :=
  (mapEvenIdx (applyKeywordsSorted (sortByLenDesc mapping)) (splitByStrings code)).flatten

/-! ## Special-pattern engine, forward direction
(`_apply_special_patterns` lines 121-133)

The default mapping's pattern sources are sequences of literal word
runs, `\s+` gaps and `(\w+)` captures (plus, in user mappings,
backreferences); `PatElem` models exactly those regex pieces.  For
these shapes the greedy leftmost match is deterministic: `\s+` and
`(\w+)` take their maximal runs and the following element starts with a
character outside the run, so no backtracking can occur. -/

/-- One compiled piece of a special-pattern regex. -/
inductive PatElem : Type
  | lit : Str → PatElem
  | ws : PatElem
  | grp : PatElem
  | backref : Nat → PatElem

/-- Match a pattern-element sequence at the start of the text; returns
the captured groups (in order) and the remaining text. -/
def matchElems : List PatElem → Str → List Str → Option (List Str × Str)
  | [], s, gs => some (gs, s)
  | .lit l :: es, s, gs =>
    if l.isPrefixOf s then matchElems es (List.drop l.length s) gs else none
  | .ws :: es, s, gs =>
    if (s.takeWhile isSpaceChar).isEmpty then none
    else matchElems es (s.dropWhile isSpaceChar) gs
  | .grp :: es, s, gs =>
    if (s.takeWhile isWordChar).isEmpty then none
    else matchElems es (s.dropWhile isWordChar) (gs ++ [s.takeWhile isWordChar])
  | .backref n :: es, s, gs =>
    match gs.get? (n - 1) with
    | some g => if g.isPrefixOf s then matchElems es (List.drop g.length s) gs else none
    | none => none

/-- Number of capturing groups of a compiled pattern. -/
def countGroups (es : List PatElem) : Nat :=
  es.countP (fun e => match e with | .grp => true | _ => false)

/-- One parsed piece of a replacement template. -/
inductive TplElem : Type
  | lit : Str → TplElem
  | ref : Nat → TplElem

/-- Value of a decimal digit string. -/
def natOfDigits (ds : Str) : Nat := ds.foldl (fun n c => n * 10 + (c.toNat - 48)) 0

/-- Model of CPython's replacement-template parser (`parse_template`),
which runs eagerly when `Pattern.sub` is called: `\` + digits is a group
reference (`\0` an octal escape for NUL), rejected when it exceeds the
pattern's group count; `\\` and the letter escapes `a b f n r t v` are
string escapes; `\` + any other ASCII letter is a bad escape (an
`re.error`); `\` + a non-letter is kept literally.  Fuel-indexed; each
step consumes at least one character. -/
def parseTemplate (groups : Nat) : Nat → Str → Except Unit (List TplElem)
  | 0, _ => .ok []
  | _ + 1, [] => .ok []
  | n + 1, c :: cs =>
    if c = bslash then
      match cs with
      | [] => .error ()
      | c2 :: cs2 =>
        if c2.isDigit then
          let ds := (c2 :: cs2).takeWhile Char.isDigit
          let rest := (c2 :: cs2).dropWhile Char.isDigit
          let g := natOfDigits ds
          if g = 0 then
            (parseTemplate groups n rest).map (fun ts => .lit [Char.ofNat 0] :: ts)
          else if g ≤ groups then
            (parseTemplate groups n rest).map (fun ts => .ref g :: ts)
          else .error ()
        else if c2 = bslash then
          (parseTemplate groups n cs2).map (fun ts => .lit [bslash] :: ts)
        else if c2.isAlpha then
          if c2 = 'n' then (parseTemplate groups n cs2).map (fun ts => .lit [nlChar] :: ts)
          else if c2 = 't' then
            (parseTemplate groups n cs2).map (fun ts => .lit [Char.ofNat 9] :: ts)
          else if c2 = 'r' then
            (parseTemplate groups n cs2).map (fun ts => .lit [Char.ofNat 13] :: ts)
          else if c2 = 'a' then
            (parseTemplate groups n cs2).map (fun ts => .lit [Char.ofNat 7] :: ts)
          else if c2 = 'b' then
            (parseTemplate groups n cs2).map (fun ts => .lit [Char.ofNat 8] :: ts)
          else if c2 = 'f' then
            (parseTemplate groups n cs2).map (fun ts => .lit [Char.ofNat 12] :: ts)
          else if c2 = 'v' then
            (parseTemplate groups n cs2).map (fun ts => .lit [Char.ofNat 11] :: ts)
          else .error ()
        else
          (parseTemplate groups n cs2).map (fun ts => .lit [bslash, c2] :: ts)
    else
      (parseTemplate groups n cs).map (fun ts => .lit [c] :: ts)

/-- Instantiate a parsed template with the captured groups. -/
def applyTemplate (ts : List TplElem) (gs : List Str) : Str :=
  (ts.map (fun t => match t with
    | .lit l => l
    | .ref n => (gs.get? (n - 1)).getD [])).flatten

/-- `pattern.sub(replacement, code)` for a compiled special pattern:
replace every leftmost non-overlapping match, scanning resumes after
the matched text, replacements are not rescanned.  The length guard on
`rest` only excludes empty matches, which none of the modelled pattern
shapes can produce. -/
def subPatternGo (p : List PatElem) (ts : List TplElem) : Nat → Str → Str
  | 0, s => s
  | _ + 1, [] => []
  | n + 1, c :: cs =>
    match matchElems p (c :: cs) [] with
    | some (gs, rest) =>
      if rest.length < (c :: cs).length then
        applyTemplate ts gs ++ subPatternGo p ts n rest
      else c :: subPatternGo p ts n cs
    | none => c :: subPatternGo p ts n cs

/-- A special-pattern table entry: the raw regex source (Python
`pattern.pattern`), its compiled form, and the replacement template
(the mapping's value). -/
structure SpecialPattern where
  src : Str
  elems : List PatElem
  tmpl : Str

/-- `_apply_special_patterns`: run every pattern's `sub` over the whole
text, in table order.  Parsing the replacement template can raise. -/
def applySpecialPatterns (pats : List SpecialPattern) (code : Str) : Except Unit Str :=
  pats.foldlM (fun acc p =>
    match parseTemplate (countGroups p.elems) (p.tmpl.length + 1) p.tmpl with
    | .error _ => .error ()
    | .ok ts => .ok (subPatternGo p.elems ts (acc.length + 1) acc)) code

/-! ## Syntax and indentation normalizer
(`_fix_syntax_issues` lines 176-201, `_fix_indentation` lines 203-223) -/

/-- `re.sub(name + r'\s*$', name, code)` for a literal `name`: the
first occurrence of `name` whose whole tail is whitespace swallows that
tail (greedy `\s*` reaches the end of the string, where `$` matches);
occurrences followed by anything non-whitespace never match. -/
def stripDecorator (name : Str) : Str → Str
  | [] => []
  | c :: cs =>
    if name.isPrefixOf (c :: cs) && (List.drop name.length (c :: cs)).all isSpaceChar
    then name
    else c :: stripDecorator name cs

/-- `str.replace(pat, rep)`: replace all non-overlapping occurrences
left to right, never rescanning replacements.  Fuel-indexed; the
`!pat.isEmpty` guard only excludes the empty pattern, which the
normalizer never uses. -/
def pyReplaceGo (pat rep : Str) : Nat → Str → Str
  | 0, s => s
  | _ + 1, [] => []
  | n + 1, c :: cs =>
    if !pat.isEmpty && pat.isPrefixOf (c :: cs) then
      rep ++ pyReplaceGo pat rep n (List.drop pat.length (c :: cs))
    else c :: pyReplaceGo pat rep n cs

/-- `str.replace(pat, rep)`. -/
def pyReplace (pat rep s : Str) : Str := pyReplaceGo pat rep (s.length + 1) s

/-- `_fix_syntax_issues`: the fixed, ordered list of literal fix-ups. -/
def fixSyntaxIssues (code : Str) : Str :=
  let c1 := stripDecorator (strOf "@property") code
  let c2 := stripDecorator (strOf "@staticmethod") c1
  let c3 := stripDecorator (strOf "@classmethod") c2
  let c4 := pyReplace (strOf "if __main__ ==") (strOf "if __name__ ==") c3
  let c5 := pyReplace (strOf "list ") [] c4
  let c6 := pyReplace (strOf "dict ") [] c5
  pyReplace (strOf "L_plus_del") (strOf "Exception") c6

/-- `code.split('\n')`. -/
def splitLines : Str → List Str
  | [] => [[]]
  | c :: cs =>
    if c = nlChar then [] :: splitLines cs
    else
      match splitLines cs with
      | [] => [[c]]
      | l :: ls => (c :: l) :: ls

/-- `'\n'.join(lines)`. -/
def joinLines : List Str → Str
  | [] => []
  | [l] => l
  | l :: ls => l ++ nlChar :: joinLines ls

/-- `line.lstrip()`: drop all leading whitespace. -/
def lstrip (s : Str) : Str := s.dropWhile isSpaceChar

/-- One line of `_fix_indentation`: count the leading whitespace
characters (`len(line) - len(line.lstrip())`), integer-divide by 4, and
re-emit that many 4-space units followed by the stripped line. -/
def fixIndentLine (line : Str) : Str :=
  let leading := line.length - (lstrip line).length
  let level := leading / 4
  (List.replicate level (strOf "    ")).flatten ++ lstrip line

/-- `_fix_indentation`. -/
def fixIndentation (code : Str) : Str :=
  joinLines ((splitLines code).map fixIndentLine)

/-- `to_python`: special patterns, then keyword replacements, then the
syntax fix-ups, then indentation normalization. -/
def toPython (mapping : List (Str × Str)) (pats : List SpecialPattern) (code : Str) :
    Except Unit Str :=
  match applySpecialPatterns pats code with
  | .error _ => .error ()
  | .ok s1 => .ok (fixIndentation (fixSyntaxIssues (applyKeywordReplacements mapping s1)))

/-! ## Reverse direction
(`from_python` lines 225-252, `_apply_reverse_special_patterns` lines
254-290) -/

/-- `{v: k for k, v in mapping.items()}`: a later duplicate value
overwrites in place, keeping the first insertion position. -/
def dictInsert (k v : Str) : List (Str × Str) → List (Str × Str)
  | [] => [(k, v)]
  | (k0, v0) :: rest =>
    if k0 = k then (k0, v) :: rest else (k0, v0) :: dictInsert k v rest

/-- The reverse mapping (canonical token to custom keyword). -/
def buildReverse (mapping : List (Str × Str)) : List (Str × Str) :=
  mapping.foldl (fun acc kv => dictInsert kv.2 kv.1 acc) []

/-- `re.search(r'\\(\d+)', src)`: the first backslash followed by
digits, returning the digits' value. -/
def findBackref : Str → Option Nat
  | [] => none
  | c :: cs =>
    if c = bslash then
      match cs with
      | [] => none
      | c2 :: cs2 =>
        if c2.isDigit then some (natOfDigits ((c2 :: cs2).takeWhile Char.isDigit))
        else findBackref cs
    else findBackref cs

/-- Number of `\b`-delimited matches of the literal `k`
(`len(list(reverse_pattern.finditer(part)))`), same scan as
`subWordGo`. -/
def countBMatchesGo (k : Str) : Nat → Bool → Str → Nat
  | 0, _, _ => 0
  | _ + 1, _, [] => 0
  | n + 1, pw, c :: cs =>
    if bMatchAt k pw (c :: cs) then
      1 + countBMatchesGo k n (isWordChar (k.getLastD ' ')) (List.drop k.length (c :: cs))
    else countBMatchesGo k n (isWordChar c) cs

/-- Number of `\b`-delimited matches of the literal `k` in `s`. -/
def countBMatches (k s : Str) : Nat := countBMatchesGo k (s.length + 1) false s

/-- Decimal digits of a number, for Python's `f'\{capture_group}'`. -/
def natDigitsGo : Nat → Nat → Str
  | 0, _ => []
  | fuel + 1, n =>
    if n < 10 then [Char.ofNat (48 + n)]
    else natDigitsGo fuel (n / 10) ++ [Char.ofNat (48 + n % 10)]

/-- Decimal digits of a number. -/
def natDigits (n : Nat) : Str := natDigitsGo (n + 1) n

/-- The capture branch of `_apply_reverse_special_patterns` (taken when
the pattern source contains a backreference `\g`): the reverse pattern
`\b + re.escape(template) + \b` is a literal with no groups, so every
match text equals the template and `m.groups()` is empty; `captured`
is the whole match for `g = 0` and the empty string otherwise (the
out-of-range guard of line 281); each match replaces all occurrences of
the match text by the source with `\g` substituted. -/
def reverseCapture (src tmpl : Str) (g : Nat) (part : Str) : Str :=
  let captured := if g = 0 then tmpl else []
  let origFormat := pyReplace (bslash :: natDigits g) captured src
  (List.range (countBMatches tmpl part)).foldl
    (fun acc _ => pyReplace tmpl origFormat acc) part

/-- The literal text of a template with no group references. -/
def tplText (ts : List TplElem) : Str :=
  (ts.map (fun t => match t with | .lit l => l | .ref _ => [])).flatten

/-- Process one non-literal part with every special pattern, in table
order: patterns whose source has a backreference take the capture
branch; otherwise `reverse_pattern.sub(pattern.pattern, part)` parses
the raw source as a replacement template — eagerly, so a source with an
escape like `\s` raises before any matching. -/
def reverseOnPart (pats : List SpecialPattern) (part : Str) : Except Unit Str :=
  pats.foldlM (fun acc p =>
    match findBackref p.src with
    | some g => .ok (reverseCapture p.src p.tmpl g acc)
    | none =>
      match parseTemplate 0 (p.src.length + 1) p.src with
      | .error _ => .error ()
      | .ok ts => .ok (subWord p.tmpl (tplText ts) acc)) part

/-- Even-index effectful map (odd parts are string literals and pass
through). -/
def mapEvenIdxE (f : Str → Except Unit Str) : List Str → Except Unit (List Str)
  | [] => .ok []
  | [a] => (f a).map (fun x => [x])
  | a :: b :: rest =>
    (f a).bind (fun a2 => (mapEvenIdxE f rest).map (fun rest2 => a2 :: b :: rest2))

/-- `_apply_reverse_special_patterns`: split again, process non-literal
parts, rejoin. -/
def reverseSpecialPatterns (pats : List SpecialPattern) (code : Str) : Except Unit Str :=
  match mapEvenIdxE (reverseOnPart pats) (splitByStrings code) with
  | .error e => .error e
  | .ok parts => .ok parts.flatten

/-- `from_python`: reverse keyword substitution on non-literal parts,
rejoin, then the reverse special patterns. -/
def fromPython (mapping : List (Str × Str)) (pats : List SpecialPattern) (code : Str) :
    Except Unit Str :=
  reverseSpecialPatterns pats
    ((mapEvenIdx (applyKeywordsSorted (sortByLenDesc (buildReverse mapping)))
      (splitByStrings code)).flatten)

/-! ## The default mapping (`create_default_mapping`, lines 595-672) -/

/-- The `keywords` table of the default mapping, in insertion order. -/
def defaultKeywords : List (Str × Str) :=
  [(strOf "skibidi", strOf "def"),
   (strOf "toilet", strOf "class"),
   (strOf "ohio", strOf "import"),
   (strOf "rizz", strOf "return"),
   (strOf "bussin", strOf "print"),
   (strOf "fr", strOf "for"),
   (strOf "no_cap", strOf "True"),
   (strOf "cap", strOf "False"),
   (strOf "yeet", strOf "if"),
   (strOf "sus", strOf "else"),
   (strOf "vibe_check", strOf "while"),
   (strOf "finna", strOf "try"),
   (strOf "bruh", strOf "except"),
   (strOf "slay", strOf "lambda"),
   (strOf "based", strOf "with"),
   (strOf "sheesh", strOf "pass"),
   (strOf "mid", strOf "None"),
   (strOf "goated", strOf "self"),
   (strOf "npc", strOf "object"),
   (strOf "glizzy", strOf "list"),
   (strOf "drip", strOf "dict"),
   (strOf "bet", strOf "in"),
   (strOf "rent_free", strOf "yield"),
   (strOf "chad", strOf "super"),
   (strOf "karen", strOf "raise"),
   (strOf "boomer", strOf "break"),
   (strOf "zoomer", strOf "continue"),
   (strOf "stan", strOf "from"),
   (strOf "simp", strOf "as"),
   (strOf "cringe", strOf "assert"),
   (strOf "touch_grass", strOf "exit"),
   (strOf "down_bad", strOf "False"),
   (strOf "up_good", strOf "True"),
   (strOf "ong", strOf "not"),
   (strOf "lowkey", strOf "nonlocal"),
   (strOf "highkey", strOf "global"),
   (strOf "main_character", strOf "__main__"),
   (strOf "villain_arc", strOf "__init__"),
   (strOf "plot_twist", strOf "finally"),
   (strOf "gaslighting", strOf "isinstance"),
   (strOf "gatekeeping", strOf "issubclass"),
   (strOf "girlboss", strOf "property"),
   (strOf "sigma", strOf "staticmethod"),
   (strOf "alpha", strOf "classmethod"),
   (strOf "beta", strOf "abstractmethod"),
   (strOf "L_plus_ratio", strOf "Exception"),
   (strOf "skill_issue", strOf "ValueError"),
   (strOf "cope", strOf "TypeError"),
   (strOf "seethe", strOf "KeyError"),
   (strOf "mald", strOf "IndexError")]

/-- The `special_patterns` table of the default mapping, in insertion
order, each source paired with its compiled form. -/
def defaultSpecialPatterns : List SpecialPattern :=
  [⟨strOf "no\\s+shot", [.lit (strOf "no"), .ws, .lit (strOf "shot")], strOf "assert"⟩,
   ⟨strOf "on\\s+god", [.lit (strOf "on"), .ws, .lit (strOf "god")], strOf "global"⟩,
   ⟨strOf "slide\\s+into\\s+(\\w+)",
     [.lit (strOf "slide"), .ws, .lit (strOf "into"), .ws, .grp], strOf "import \\1"⟩,
   ⟨strOf "spill\\s+the\\s+tea",
     [.lit (strOf "spill"), .ws, .lit (strOf "the"), .ws, .lit (strOf "tea")],
     strOf "raise Exception"⟩,
   ⟨strOf "ratio\\s+(\\w+)", [.lit (strOf "ratio"), .ws, .grp], strOf "del \\1"⟩]

-- temporary sanity checks against CPython re.sub behaviour
example : subWord (strOf "cap") (strOf "False") (strOf "no_cap cap capx cap") =
    strOf "no_cap False capx False" := by rfl
example : subWord (strOf "aa") (strOf "b") (strOf "aaaa aa.aa") =
    strOf "aaaa b.b" := by rfl
example : subWord (strOf "fr") (strOf "for") (strOf "fr frfr fr-fr") =
    strOf "for frfr for-for" := by rfl
example : applyKeywordReplacements [(strOf "rizz", strOf "return")]
    (strOf "rizz = \"rizz\"") = strOf "return = \"rizz\"" := by rfl

-- temporary sanity checks against CPython re.split behaviour
example : splitByStrings (strOf "x = \"rizz\"") =
    [strOf "x = ", strOf "\"rizz\"", strOf ""] := by rfl
example : splitByStrings (strOf "'a\\'b") = [strOf "", strOf "'a\\'", strOf "b"] := by rfl
example : splitByStrings (strOf "it's fine") = [strOf "it's fine"] := by rfl
example : splitByStrings (strOf "'it's'") = [strOf "", strOf "'it'", strOf "s'"] := by rfl
example : splitByStrings (strOf "'ab\\'\"z\"") =
    [strOf "", strOf "'ab\\'", strOf "", strOf "\"z\"", strOf ""] := by rfl
example : splitByStrings (strOf "pre'a\\''post") =
    [strOf "pre", strOf "'a\\''", strOf "post"] := by rfl

-- temporary sanity checks of the pipelines
example : toPython defaultKeywords defaultSpecialPatterns (strOf "slide into os") =
    .ok (strOf "import os") := by rfl
example : fromPython defaultKeywords defaultSpecialPatterns (strOf "return 1") =
    .error () := by rfl
example : fromPython defaultKeywords [] (strOf "return 1") =
    .ok (strOf "rizz 1") := by rfl
example : toPython defaultKeywords [] (strOf "rizz 1") = .ok (strOf "return 1") := by rfl
example : fixIndentation (fixSyntaxIssues (strOf "llist ist ")) = strOf "list " := by rfl
example : fixIndentation (fixSyntaxIssues (strOf "list ")) = strOf "" := by rfl
example : toPython defaultKeywords [] (strOf "glizzy mid") = .ok (strOf "None") := by rfl
example : fromPython defaultKeywords [] (strOf "list None") =
    .ok (strOf "glizzy mid") := by rfl
example : reverseSpecialPatterns defaultSpecialPatterns (strOf "import os") =
    .error () := by rfl
example : reverseOnPart [⟨strOf "(\\w+)\\1", [.grp, .backref 1], strOf "z"⟩]
    (strOf "z") = .ok (strOf "(\\w+)") := by rfl
example : fixIndentation (strOf "     x") = strOf "    x" := by rfl
example : fixIndentation (strOf "   \tx") = strOf "    x" := by rfl

/-! ## Lemmas about the indentation normalizer -/

theorem splitLines_ne_nil (s : Str) : splitLines s ≠ [] := by
  match s with
  | [] => simp [splitLines]
  | c :: cs =>
    rw [splitLines]
    by_cases h : c = nlChar
    · simp [h]
    · rw [if_neg h]
      match splitLines cs with
      | [] => simp
      | l :: ls => simp

theorem splitLines_no_nl (s : Str) : ∀ l ∈ splitLines s, nlChar ∉ l := by
  induction s with
  | nil => intro l hl; simp [splitLines] at hl; simp [hl]
  | cons c cs ih =>
    intro l hl
    rw [splitLines] at hl
    by_cases h : c = nlChar
    · rw [if_pos h] at hl
      cases hl with
      | head => simp
      | tail _ hm => exact ih l hm
    · rw [if_neg h] at hl
      match hs : splitLines cs with
      | [] => exact absurd hs (splitLines_ne_nil cs)
      | l0 :: ls =>
        rw [hs] at hl
        cases hl with
        | head =>
          intro hmem
          cases hmem with
          | head => exact h rfl
          | tail _ hm => exact ih l0 (by rw [hs]; exact List.mem_cons_self l0 ls) hm
        | tail _ hm => exact ih l (by rw [hs]; exact List.mem_cons_of_mem l0 hm)

theorem splitLines_append_nl (l s : Str) (hl : nlChar ∉ l) :
    splitLines (l ++ nlChar :: s) = l :: splitLines s := by
  induction l with
  | nil => simp [splitLines]
  | cons c l ih =>
    have hc : c ≠ nlChar := by intro h; exact hl (by simp [h])
    have hl2 : nlChar ∉ l := by intro h; exact hl (by simp [h])
    rw [List.cons_append, splitLines, if_neg hc, ih hl2]

theorem splitLines_single (l : Str) (hl : nlChar ∉ l) : splitLines l = [l] := by
  induction l with
  | nil => simp [splitLines]
  | cons c l ih =>
    have hc : c ≠ nlChar := fun h => hl (by simp [h])
    rw [splitLines, if_neg hc, ih (fun h => hl (by simp [h]))]

theorem splitLines_joinLines :
    ∀ ls, ls ≠ [] → (∀ l ∈ ls, nlChar ∉ l) → splitLines (joinLines ls) = ls := by
  intro ls
  induction ls with
  | nil => intro h; exact absurd rfl h
  | cons l ls ih =>
    intro _ hno
    match ls with
    | [] =>
      rw [joinLines]
      exact splitLines_single l (hno l (by simp))
    | l2 :: ls2 =>
      have hjoin : joinLines (l :: l2 :: ls2) = l ++ nlChar :: joinLines (l2 :: ls2) := rfl
      rw [hjoin]
      rw [splitLines_append_nl l (joinLines (l2 :: ls2)) (hno l (by simp))]
      have hne : l2 :: ls2 ≠ [] := by intro h; simp at h
      have hrec := ih hne (by intro x hx; exact hno x (List.mem_cons_of_mem l hx))
      rw [hrec]

theorem lstrip_head_not_space (l : Str) :
    ∀ c, (lstrip l).head? = some c → isSpaceChar c = false := by
  induction l with
  | nil => intro c h; simp [lstrip] at h
  | cons a l ih =>
    intro c h
    rw [lstrip] at h
    by_cases ha : isSpaceChar a
    · rw [List.dropWhile_cons_of_pos ha] at h
      exact ih c h
    · rw [List.dropWhile_cons_of_neg ha] at h
      simp at h
      rw [← h]
      simpa using ha

theorem lstrip_append_spaces (R L : Str) (hR : ∀ c ∈ R, isSpaceChar c) :
    lstrip (R ++ L) = lstrip L := by
  induction R with
  | nil => simp
  | cons c R ih =>
    rw [List.cons_append, lstrip, List.dropWhile_cons_of_pos (hR c (by simp))]
    exact ih (by intro x hx; exact hR x (by simp [hx]))

theorem lstrip_no_space_head (L : Str) (hL : ∀ c, L.head? = some c → isSpaceChar c = false) :
    lstrip L = L := by
  match L with
  | [] => simp [lstrip]
  | c :: L2 =>
    rw [lstrip, List.dropWhile_cons_of_neg]
    simp [hL c rfl]

theorem flatten_replicate_spaces :
    ∀ n, (List.replicate n (strOf "    ")).flatten = List.replicate (4 * n) ' ' := by
  intro n
  induction n with
  | zero => simp
  | succ n ih =>
    rw [List.replicate_succ, List.flatten_cons, ih]
    have : 4 * (n + 1) = 4 + 4 * n := by omega
    rw [this, List.replicate_add]
    rfl

theorem mem_replicate_space (n : Nat) : ∀ c ∈ List.replicate n ' ', isSpaceChar c := by
  intro c hc
  have := List.eq_of_mem_replicate hc
  simp [this, isSpaceChar]

theorem fixIndentLine_eq (l : Str) :
    fixIndentLine l =
      List.replicate (4 * ((l.length - (lstrip l).length) / 4)) ' ' ++ lstrip l := by
  rw [fixIndentLine, flatten_replicate_spaces]

theorem lstrip_fixIndentLine (l : Str) : lstrip (fixIndentLine l) = lstrip l := by
  rw [fixIndentLine_eq]
  rw [lstrip_append_spaces _ _ (mem_replicate_space _)]
  exact lstrip_no_space_head _ (lstrip_head_not_space l)

theorem fixIndentLine_idem (l : Str) : fixIndentLine (fixIndentLine l) = fixIndentLine l := by
  have hstrip := lstrip_fixIndentLine l
  have hlen : (fixIndentLine l).length - (lstrip (fixIndentLine l)).length =
      4 * ((l.length - (lstrip l).length) / 4) := by
    rw [hstrip, fixIndentLine_eq]
    simp
  rw [fixIndentLine_eq, hlen, hstrip, Nat.mul_div_cancel_left _ (by omega : 0 < 4),
    ← fixIndentLine_eq]

theorem fixIndentLine_no_nl (l : Str) (h : nlChar ∉ l) : nlChar ∉ fixIndentLine l := by
  rw [fixIndentLine_eq]
  intro hmem
  rcases List.mem_append.mp hmem with hm | hm
  · have := List.eq_of_mem_replicate hm
    exact absurd this (by decide)
  · exact h ((List.dropWhile_sublist isSpaceChar).mem hm)

theorem fixIndentation_idem (code : Str) :
    fixIndentation (fixIndentation code) = fixIndentation code := by
  simp only [fixIndentation]
  rw [splitLines_joinLines]
  · rw [List.map_map]
    congr 1
    apply List.map_congr_left
    intro l _
    exact fixIndentLine_idem l
  · intro h
    have := splitLines_ne_nil code
    simp at h
    exact this h
  · intro l hl
    rw [List.mem_map] at hl
    obtain ⟨l0, hl0, rfl⟩ := hl
    exact fixIndentLine_no_nl l0 (splitLines_no_nl code l0 hl0)

/-! ## Lemmas about even-index maps, the keyword sort, and the reverse
capture branch -/

theorem mapEvenIdx_getElem_odd (f : Str → Str) :
    ∀ (l : List Str) (i : Nat), (mapEvenIdx f l)[2 * i + 1]? = l[2 * i + 1]? := by
  intro l
  induction l using mapEvenIdx.induct f with
  | case1 =>
    intro i
    rfl
  | case2 a =>
    intro i
    have h1 : ([f a] : List Str).length ≤ 2 * i + 1 := by simp
    have h2 : ([a] : List Str).length ≤ 2 * i + 1 := by simp
    rw [mapEvenIdx, List.getElem?_eq_none h1, List.getElem?_eq_none h2]
  | case3 a b rest ih =>
    intro i
    have hm : mapEvenIdx f (a :: b :: rest) = f a :: b :: mapEvenIdx f rest := by
      rw [mapEvenIdx]
    cases i with
    | zero => rw [hm]; simp
    | succ j =>
      have e : 2 * (j + 1) + 1 = 2 * j + 1 + 1 + 1 := by omega
      rw [hm, e, List.getElem?_cons_succ, List.getElem?_cons_succ,
        List.getElem?_cons_succ, List.getElem?_cons_succ]
      exact ih j

theorem mem_insertLenDesc (p x : Str × Str) :
    ∀ l, x ∈ insertLenDesc p l ↔ x = p ∨ x ∈ l := by
  intro l
  induction l with
  | nil => simp [insertLenDesc]
  | cons q qs ih =>
    rw [insertLenDesc]
    by_cases h : q.1.length ≤ p.1.length
    · rw [if_pos h]
      exact List.mem_cons
    · rw [if_neg h]
      simp only [List.mem_cons, ih]
      tauto

theorem insertLenDesc_pairwise (p : Str × Str) :
    ∀ l, List.Pairwise (fun a b : Str × Str => b.1.length ≤ a.1.length) l →
      List.Pairwise (fun a b : Str × Str => b.1.length ≤ a.1.length)
        (insertLenDesc p l) := by
  intro l
  induction l with
  | nil =>
    intro _
    simp [insertLenDesc]
  | cons q qs ih =>
    intro h
    rcases List.pairwise_cons.mp h with ⟨hq, hqs⟩
    rw [insertLenDesc]
    by_cases hc : q.1.length ≤ p.1.length
    · rw [if_pos hc]
      refine List.pairwise_cons.mpr ⟨?_, h⟩
      intro x hx
      rcases List.mem_cons.mp hx with rfl | hx
      · exact hc
      · exact le_trans (hq x hx) hc
    · rw [if_neg hc]
      refine List.pairwise_cons.mpr ⟨?_, ih hqs⟩
      intro x hx
      rcases (mem_insertLenDesc p x qs).mp hx with rfl | hx
      · omega
      · exact hq x hx

theorem sortByLenDesc_pairwise (l : List (Str × Str)) :
    List.Pairwise (fun a b : Str × Str => b.1.length ≤ a.1.length)
      (sortByLenDesc l) := by
  rw [sortByLenDesc]
  induction l with
  | nil => simp
  | cons p ps ih => exact insertLenDesc_pairwise p _ ih

theorem reverseOnPart_ok :
    ∀ (pats : List SpecialPattern),
      (∀ p ∈ pats, (findBackref p.src).isSome) →
      ∀ part, ∃ r, reverseOnPart pats part = .ok r := by
  intro pats
  induction pats with
  | nil =>
    intro _ part
    exact ⟨part, rfl⟩
  | cons p ps ih =>
    intro hp part
    have hs := hp p (by simp)
    match hb : findBackref p.src with
    | none => rw [hb] at hs; simp at hs
    | some g =>
      obtain ⟨r, hr⟩ := ih (by intro x hx; exact hp x (List.mem_cons_of_mem p hx))
        (reverseCapture p.src p.tmpl g part)
      refine ⟨r, ?_⟩
      simp only [reverseOnPart, List.foldlM_cons, hb]
      simp only [reverseOnPart] at hr
      exact hr

theorem mapEvenIdxE_ok (f : Str → Except Unit Str)
    (hf : ∀ s, ∃ r, f s = .ok r) :
    ∀ l, ∃ l2, mapEvenIdxE f l = .ok l2 := by
  intro l
  induction l using mapEvenIdxE.induct f with
  | case1 => exact ⟨[], rfl⟩
  | case2 a =>
    obtain ⟨r, hr⟩ := hf a
    exact ⟨[r], by rw [mapEvenIdxE, hr]; rfl⟩
  | case3 a b rest ih =>
    obtain ⟨r, hr⟩ := hf a
    obtain ⟨l2, hl2⟩ := ih
    exact ⟨r :: b :: l2, by rw [mapEvenIdxE, hr, hl2]; rfl⟩

/-! ## Spec-modelled variant for claim C8

The claim words the indentation rule as counting leading *space*
characters; the source counts all leading whitespace
(`len(line) - len(line.lstrip())`).  The spec-modelled variant below
follows the claim's words for comparison. -/

/-- Modelled from the claim's words: level = (number of leading `' '`
characters) / 4, emitted as 4-space units plus the line with leading
whitespace removed. -/
def fixIndentLineSpecModel (line : Str) : Str :=
  let level := (line.takeWhile (fun c => c = ' ')).length / 4
  (List.replicate level (strOf "    ")).flatten ++ lstrip line

/-- The per-line spec-modelled rule applied to every line. -/
def fixIndentationSpecModel (code : Str) : Str :=
  joinLines ((splitLines code).map fixIndentLineSpecModel)

theorem length_sub_lstrip (l : Str) :
    l.length - (lstrip l).length = (l.takeWhile isSpaceChar).length := by
  have h := congrArg List.length (@List.takeWhile_append_dropWhile _ isSpaceChar l)
  rw [List.length_append] at h
  rw [lstrip]
  omega

/-! ## Word-token texts and how the keyword engine acts on them

For the round-trip claim the input is a sequence of word-character
tokens joined by single spaces.  On such texts a `\b`-delimited
substitution of a word-only keyword `k` can only replace whole tokens
equal to `k`: inside a token the left boundary fails, and a match
cannot extend across a space because the keyword has no space. -/

/-- `' '.join(tokens)`. -/
def joinSpace : List Str → Str
  | [] => []
  | [t] => t
  | t :: ts => t ++ ' ' :: joinSpace ts

/-- A well-formed token: non-empty, word characters only. -/
def wfTok (t : Str) : Bool := !t.isEmpty && t.all isWordChar

theorem subWordGo_fuel (k v : Str) :
    ∀ N s, s.length ≤ N → ∀ n m pw, s.length ≤ n → s.length ≤ m →
      subWordGo k v n pw s = subWordGo k v m pw s := by
  intro N
  induction N with
  | zero =>
    intro s hs n m pw _ _
    have : s = [] := by cases s <;> simp_all
    subst this
    cases n <;> cases m <;> rfl
  | succ N ih =>
    intro s hs n m pw hn hm
    match s with
    | [] => cases n <;> cases m <;> rfl
    | c :: cs =>
      cases n with
      | zero => simp at hn
      | succ n =>
        cases m with
        | zero => simp at hm
        | succ m =>
          rw [subWordGo, subWordGo]
          by_cases hb : bMatchAt k pw (c :: cs) = true
          · rw [if_pos hb, if_pos hb]
            congr 1
            have hkne : 1 ≤ k.length := by
              cases hk : k with
              | nil => rw [hk] at hb; simp [bMatchAt] at hb
              | cons a l => simp
            have hd : (List.drop k.length (c :: cs)).length = cs.length + 1 - k.length := by
              simp
            refine ih _ (by rw [hd]; simp at hs; omega) n m _ ?_ ?_
            · rw [hd]; simp at hn; omega
            · rw [hd]; simp at hm; omega
          · rw [if_neg hb, if_neg hb]
            congr 1
            exact ih cs (by simp at hs; omega) n m _ (by simp at hn; omega)
              (by simp at hm; omega)

theorem subWord_eq_go (k v : Str) (s : Str) (n : Nat) (h : s.length ≤ n) :
    subWord k v s = subWordGo k v n false s := by
  rw [subWord]
  exact subWordGo_fuel k v (s.length + 1) s (by omega) _ n false (by omega) h

/-- Inside a run of word characters (previous character a word
character) no `\b`-delimited match of a word-only keyword can start. -/
theorem subWordGo_skip_word (k v : Str) (hk : k ≠ []) (hkw : k.all isWordChar) :
    ∀ u t n, (u ++ t).length ≤ n → u.all isWordChar = true →
      subWordGo k v n true (u ++ t) = u ++ subWordGo k v n true t := by
  intro u
  induction u with
  | nil =>
    intro t n _ _
    simp
  | cons a u ih =>
    intro t n hn hw
    simp only [List.all_cons, Bool.and_eq_true] at hw
    cases n with
    | zero => simp at hn
    | succ n =>
      rw [List.cons_append, subWordGo]
      have hkh : isWordChar (k.headD ' ') = true := by
        cases k with
        | nil => exact absurd rfl hk
        | cons b l =>
          simp only [List.all_cons, Bool.and_eq_true] at hkw
          simpa using hkw.1
      have hb : bMatchAt k true (a :: (u ++ t)) = false := by
        rw [bMatchAt, hkh]
        simp
      rw [if_neg (by rw [hb]; simp), hw.1]
      rw [ih t n (by simp at hn ⊢; omega) hw.2]
      have := subWordGo_fuel k v t.length t le_rfl n (n + 1) true
        (by simp at hn; omega) (by simp at hn; omega)
      rw [this]
      simp

theorem getLastD_mem_of_ne_nil (k : Str) (d : Char) (hk : k ≠ []) : k.getLastD d ∈ k := by
  have h1 := List.getLast_mem_getLast? hk
  have h2 : k.getLast? = some (k.getLast hk) := Option.mem_def.mp h1
  rw [List.getLastD_eq_getLast?, h2, Option.getD_some]
  exact List.getLast_mem hk

/-- A `\b`-delimited match of a word-only keyword cannot start at a
token that differs from the keyword (the whole following text starts
with that token, then something non-word). -/
theorem bMatchAt_token_ne (k : Str) (hk : k ≠ []) (hkw : k.all isWordChar)
    (t : Str) (htw : t.all isWordChar) (hne : t ≠ k)
    (rest : Str) (hrest : headIsWord rest = false) (pw : Bool) :
    bMatchAt k pw (t ++ rest) = false := by
  by_cases hp : k.isPrefixOf (t ++ rest) = true
  · have hp2 : k <+: t ++ rest := by
      rw [← List.isPrefixOf_iff_prefix]
      exact hp
    obtain ⟨u, hu⟩ := hp2
    rcases List.append_eq_append_iff.mp hu.symm with ⟨a2, ha2, hrest2⟩ | ⟨c2, hc2, _⟩
    · -- k = t ++ a2: a2 nonempty (else k = t), so rest starts with a word char of k
      match a2, ha2, hrest2 with
      | [], ha2, _ =>
        simp at ha2
        exact absurd ha2.symm hne
      | d :: a2, ha2, hrest2 =>
        have hdw : isWordChar d = true := by
          have : d ∈ k := by rw [ha2]; simp
          exact List.all_eq_true.mp hkw d this
        have : headIsWord rest = true := by
          rw [hrest2]
          simp [headIsWord, hdw]
        rw [this] at hrest
        cases hrest
    · -- t = k ++ c2: c2 nonempty (else t = k), so a word char follows the match
      match c2, hc2 with
      | [], hc2 =>
        simp at hc2
        exact absurd hc2 hne
      | b :: a2, hc2 =>
        have hdrop : List.drop k.length (t ++ rest) = (b :: a2) ++ rest := by
          rw [hc2, List.append_assoc, List.drop_left]
        have hbw : isWordChar b = true := by
          have : b ∈ t := by rw [hc2]; simp
          exact List.all_eq_true.mp htw b this
        rw [bMatchAt, hdrop]
        simp only [headIsWord, List.cons_append, hbw]
        have hkl : isWordChar (k.getLastD ' ') = true :=
          List.all_eq_true.mp hkw _ (getLastD_mem_of_ne_nil k ' ' hk)
        rw [hkl]
        simp
  · have hp2 : List.isPrefixOf k (t ++ rest) = false :=
      Bool.not_eq_true _ ▸ Bool.of_not_eq_true hp
    rw [bMatchAt, hp2]
    simp

theorem isPrefixOf_false_of_head (k : Str) (hk : k ≠ []) (hkw : k.all isWordChar)
    (c : Char) (hc : isWordChar c = false) (R : Str) :
    List.isPrefixOf k (c :: R) = false := by
  match k, hk with
  | b :: k2, _ =>
    rw [Bool.eq_false_iff]
    intro hp
    rw [List.isPrefixOf_iff_prefix] at hp
    have hb : b = c := (List.cons_prefix_cons.mp hp).1
    have hbw : isWordChar b = true := by
      simp only [List.all_cons, Bool.and_eq_true] at hkw
      exact hkw.1
    rw [hb, hc] at hbw
    cases hbw

theorem subWordGo_pw_nonword (k v : Str) (hk : k ≠ []) (hkw : k.all isWordChar) :
    ∀ n tail pw pw2, headIsWord tail = false →
      subWordGo k v n pw tail = subWordGo k v n pw2 tail := by
  intro n tail pw pw2 hta
  match n, tail with
  | 0, _ => rfl
  | _ + 1, [] => rfl
  | n + 1, c :: R =>
    have hc : isWordChar c = false := by simpa [headIsWord] using hta
    have hb : ∀ q : Bool, bMatchAt k q (c :: R) = false := by
      intro q
      rw [bMatchAt, isPrefixOf_false_of_head k hk hkw c hc R]
      simp
    rw [subWordGo, subWordGo, if_neg (by rw [hb]; simp), if_neg (by rw [hb]; simp)]

theorem head_word_of_all (k : Str) (hk : k ≠ []) (hkw : k.all isWordChar) :
    isWordChar (k.headD ' ') = true := by
  obtain ⟨b, k2, rfl⟩ : ∃ b k2, k = b :: k2 := by
    cases k with
    | nil => exact absurd rfl hk
    | cons a l => exact ⟨a, l, rfl⟩
  simp only [List.all_cons, Bool.and_eq_true] at hkw
  simpa using hkw.1

theorem bMatchAt_self (k : Str) (hk : k ≠ []) (hkw : k.all isWordChar)
    (rest : Str) (hrest : headIsWord rest = false) :
    bMatchAt k false (k ++ rest) = true := by
  rw [bMatchAt]
  have h1 : k.isEmpty = false := by
    cases k with
    | nil => exact absurd rfl hk
    | cons a l => rfl
  have h2 : k.isPrefixOf (k ++ rest) = true := by
    rw [List.isPrefixOf_iff_prefix]
    exact List.prefix_append k rest
  have h3 := head_word_of_all k hk hkw
  have h4 : isWordChar (k.getLastD ' ') = true :=
    List.all_eq_true.mp hkw _ (getLastD_mem_of_ne_nil k ' ' hk)
  have h5 : List.drop k.length (k ++ rest) = rest := List.drop_left k rest
  rw [h1, h2, h3, h4, h5, hrest]
  rfl

theorem subWordGo_match_step (k v : Str) (hk : k ≠ []) (hkw : k.all isWordChar)
    (tail : Str) (ht : headIsWord tail = false) (n : Nat) :
    subWordGo k v (n + 1) false (k ++ tail) =
      v ++ subWordGo k v n (isWordChar (k.getLastD ' ')) tail := by
  obtain ⟨c, k2, rfl⟩ : ∃ c k2, k = c :: k2 := by
    cases k with
    | nil => exact absurd rfl hk
    | cons a l => exact ⟨a, l, rfl⟩
  rw [List.cons_append, subWordGo]
  rw [if_pos (by rw [← List.cons_append]; exact bMatchAt_self _ hk hkw tail ht)]
  have hdrop : List.drop (c :: k2).length (c :: (k2 ++ tail)) = tail := by
    rw [← List.cons_append, List.drop_left]
  rw [hdrop]

theorem subWordGo_space_step (k v : Str) (hk : k ≠ []) (hkw : k.all isWordChar)
    (R : Str) (n : Nat) (pw : Bool) :
    subWordGo k v (n + 1) pw (' ' :: R) = ' ' :: subWordGo k v n false R := by
  have hsp : isWordChar ' ' = false := by decide
  rw [subWordGo]
  rw [if_neg (by rw [bMatchAt, isPrefixOf_false_of_head k hk hkw ' ' hsp R]; simp)]
  rw [hsp]

theorem subWordGo_token (k v : Str) (hk : k ≠ []) (hkw : k.all isWordChar)
    (t : Str) (htn : t ≠ []) (htw : t.all isWordChar)
    (tail : Str) (hta : headIsWord tail = false) :
    ∀ n, (t ++ tail).length ≤ n →
      subWordGo k v n false (t ++ tail) =
        (if t = k then v else t) ++ subWordGo k v tail.length false tail := by
  intro n hn
  have hlen : (t ++ tail).length = t.length + tail.length := by simp
  have ht1 : 1 ≤ t.length := by
    cases t with
    | nil => exact absurd rfl htn
    | cons a l => simp
  cases n with
  | zero => omega
  | succ n =>
    have htail : tail.length ≤ n := by omega
    by_cases heq : t = k
    · rw [if_pos heq, heq, subWordGo_match_step k v hk hkw tail hta n]
      congr 1
      rw [subWordGo_pw_nonword k v hk hkw n tail _ false hta]
      exact subWordGo_fuel k v n tail htail n tail.length false htail le_rfl
    · obtain ⟨c, t2, rfl⟩ : ∃ c t2, t = c :: t2 := by
        cases t with
        | nil => exact absurd rfl htn
        | cons a l => exact ⟨a, l, rfl⟩
      rw [List.cons_append, subWordGo]
      rw [if_neg (by
        rw [← List.cons_append]
        rw [bMatchAt_token_ne k hk hkw (c :: t2) htw heq tail hta false]
        simp)]
      simp only [List.all_cons, Bool.and_eq_true] at htw
      rw [htw.1]
      rw [subWordGo_skip_word k v hk hkw t2 tail n (by simp at hn ⊢; omega) htw.2]
      rw [if_neg heq]
      rw [subWordGo_pw_nonword k v hk hkw n tail _ false hta]
      rw [subWordGo_fuel k v n tail htail n tail.length false htail le_rfl]
      rfl

/-- The action of one word-only keyword substitution on a space-joined
token sequence: exactly the tokens equal to the keyword are replaced. -/
theorem subWord_joinSpace (k v : Str) (hk : k ≠ []) (hkw : k.all isWordChar) :
    ∀ toks, (∀ t ∈ toks, wfTok t = true) →
      subWord k v (joinSpace toks) =
        joinSpace (toks.map (fun t => if t = k then v else t)) := by
  intro toks
  induction toks with
  | nil => intro _; rfl
  | cons t ts ih =>
    intro hwf
    have hwt := hwf t (by simp)
    rw [wfTok, Bool.and_eq_true] at hwt
    have htn : t ≠ [] := by
      intro he
      rw [he] at hwt
      simp at hwt
    have htw : t.all isWordChar = true := hwt.2
    match ts with
    | [] =>
      have hjs : joinSpace [t] = t ++ [] := by simp [joinSpace]
      rw [hjs, subWord_eq_go k v (t ++ []) ((t ++ []).length) le_rfl]
      rw [subWordGo_token k v hk hkw t htn htw [] (by rfl) _ le_rfl]
      simp [joinSpace, subWordGo]
    | t2 :: ts2 =>
      have hjs : joinSpace (t :: t2 :: ts2) = t ++ (' ' :: joinSpace (t2 :: ts2)) := rfl
      rw [hjs]
      rw [subWord_eq_go k v _ ((t ++ (' ' :: joinSpace (t2 :: ts2))).length) le_rfl]
      rw [subWordGo_token k v hk hkw t htn htw (' ' :: joinSpace (t2 :: ts2))
        (by rfl) _ le_rfl]
      rw [List.length_cons, subWordGo_space_step k v hk hkw _ _ false]
      have hrec := ih (by intro x hx; exact hwf x (List.mem_cons_of_mem t hx))
      rw [subWord] at hrec
      rw [subWordGo_fuel k v (joinSpace (t2 :: ts2)).length _ le_rfl _
        ((joinSpace (t2 :: ts2)).length + 1) false le_rfl (by omega), hrec]
      simp only [List.map_cons]
      rfl

theorem wfTok_ne_nil {t : Str} (h : wfTok t = true) : t ≠ [] := by
  intro he
  rw [he] at h
  simp [wfTok] at h

theorem wfTok_all {t : Str} (h : wfTok t = true) : t.all isWordChar = true := by
  rw [wfTok, Bool.and_eq_true] at h
  exact h.2

/-- Per-token effect of a whole sorted keyword pass. -/
def tokChain (kws : List (Str × Str)) (t : Str) : Str :=
  kws.foldl (fun t kv => if t = kv.1 then kv.2 else t) t

theorem applyKeywordsSorted_joinSpace :
    ∀ (kws : List (Str × Str)) toks,
      (∀ kv ∈ kws, wfTok kv.1 = true ∧ wfTok kv.2 = true) →
      (∀ t ∈ toks, wfTok t = true) →
      applyKeywordsSorted kws (joinSpace toks) =
        joinSpace (toks.map (tokChain kws)) := by
  intro kws
  induction kws with
  | nil =>
    intro toks _ _
    have : toks.map (tokChain []) = toks := by
      rw [show tokChain [] = id from rfl]
      exact List.map_id toks
    rw [this]
    rfl
  | cons kv kws ih =>
    intro toks hkv hwf
    obtain ⟨h1, h2⟩ := hkv kv (by simp)
    have hstep : applyKeywordsSorted (kv :: kws) (joinSpace toks) =
        applyKeywordsSorted kws (subWord kv.1 kv.2 (joinSpace toks)) := rfl
    rw [hstep]
    rw [subWord_joinSpace kv.1 kv.2 (wfTok_ne_nil h1) (wfTok_all h1) toks hwf]
    have hmapwf : ∀ t ∈ toks.map (fun t => if t = kv.1 then kv.2 else t),
        wfTok t = true := by
      intro x hx
      rw [List.mem_map] at hx
      obtain ⟨t0, ht0, rfl⟩ := hx
      by_cases hc : t0 = kv.1
      · rw [if_pos hc]; exact h2
      · rw [if_neg hc]; exact hwf t0 ht0
    rw [ih (toks.map (fun t => if t = kv.1 then kv.2 else t))
      (fun x hx => hkv x (List.mem_cons_of_mem kv hx)) hmapwf]
    rw [List.map_map]
    congr 1

theorem matchString_none_of_head (c : Char) (cs : Str)
    (h1 : c ≠ squote) (h2 : c ≠ dquote) : matchString (c :: cs) = none := by
  rw [matchString, if_neg h1, if_neg h2]

theorem splitAux_noQuote :
    ∀ s, (∀ c ∈ s, c ≠ squote ∧ c ≠ dquote) → splitAux s = (s, none) := by
  intro s
  induction s with
  | nil => intro _; rfl
  | cons c cs ih =>
    intro h
    rw [splitAux, matchString_none_of_head c cs (h c (by simp)).1 (h c (by simp)).2]
    rw [ih (fun x hx => h x (List.mem_cons_of_mem c hx))]

theorem splitByStrings_noQuote (s : Str) (h : ∀ c ∈ s, c ≠ squote ∧ c ≠ dquote) :
    splitByStrings s = [s] := by
  rw [splitByStrings, splitGo, splitAux_noQuote s h]

theorem mapEvenIdxE_nilPats :
    ∀ l, mapEvenIdxE (reverseOnPart []) l = .ok l := by
  intro l
  induction l using mapEvenIdxE.induct (reverseOnPart []) with
  | case1 => rfl
  | case2 a => rfl
  | case3 a b rest ih =>
    rw [mapEvenIdxE, ih]
    rfl

theorem reverseSpecialPatterns_nilPats (code : Str) :
    reverseSpecialPatterns [] code = .ok code := by
  rw [reverseSpecialPatterns, mapEvenIdxE_nilPats]
  show Except.ok (splitByStrings code).flatten = Except.ok code
  rw [flatten_splitByStrings]

theorem joinSpace_chars :
    ∀ toks, (∀ t ∈ toks, t.all isWordChar = true) →
      ∀ c ∈ joinSpace toks, isWordChar c = true ∨ c = ' ' := by
  intro toks
  induction toks with
  | nil =>
    intro _ c hc
    simp [joinSpace] at hc
  | cons t ts ih =>
    intro h c hc
    match ts with
    | [] =>
      left
      exact List.all_eq_true.mp (h t (by simp)) c hc
    | t2 :: ts2 =>
      have hj : joinSpace (t :: t2 :: ts2) = t ++ ' ' :: joinSpace (t2 :: ts2) := rfl
      rw [hj] at hc
      rcases List.mem_append.mp hc with hm | hm
      · left
        exact List.all_eq_true.mp (h t (by simp)) c hm
      · rcases List.mem_cons.mp hm with rfl | hm
        · right; rfl
        · exact ih (fun x hx => h x (List.mem_cons_of_mem t hx)) c hm

/-! ## Occurrences of a literal substring inside a token text -/

/-- Does `pat` occur as a contiguous substring? -/
def containsSub (pat : Str) : Str → Bool
  | [] => pat.isEmpty
  | c :: cs => pat.isPrefixOf (c :: cs) || containsSub pat cs

theorem containsSub_char (pat s : Str) :
    containsSub pat s = true ↔ ∃ s2, s2 <:+ s ∧ pat <+: s2 := by
  induction s with
  | nil =>
    rw [containsSub]
    constructor
    · intro h
      have : pat = [] := by
        cases pat with
        | nil => rfl
        | cons a l => simp at h
      exact ⟨[], List.suffix_refl [], by rw [this]⟩
    · rintro ⟨s2, hs2, hp⟩
      have h1 : s2 = [] := List.suffix_nil.mp hs2
      rw [h1] at hp
      have h2 : pat = [] := List.prefix_nil.mp hp
      rw [h2]
      rfl
  | cons c cs ih =>
    rw [containsSub, Bool.or_eq_true, ih]
    constructor
    · rintro (hp | ⟨s2, h1, h2⟩)
      · exact ⟨c :: cs, List.suffix_refl _,
          by rw [← List.isPrefixOf_iff_prefix]; exact hp⟩
      · exact ⟨s2, h1.trans (List.suffix_cons c cs), h2⟩
    · rintro ⟨s2, h1, h2⟩
      rcases List.suffix_cons_iff.mp h1 with rfl | h1
      · left
        rw [List.isPrefixOf_iff_prefix]
        exact h2
      · right
        exact ⟨s2, h1, h2⟩

theorem containsSub_subset (pat s : Str) (h : containsSub pat s = true) :
    ∀ c ∈ pat, c ∈ s := by
  obtain ⟨s2, h1, h2⟩ := (containsSub_char pat s).mp h
  intro c hc
  exact h1.subset (h2.subset hc)

theorem suffix_append_cases {l a b : Str} (h : l <:+ a ++ b) :
    l <:+ b ∨ ∃ a2, a2 <:+ a ∧ a2 ≠ [] ∧ l = a2 ++ b := by
  induction a with
  | nil =>
    left
    simpa using h
  | cons c a ih =>
    rcases List.suffix_cons_iff.mp (by simpa using h) with h1 | h1
    · right
      exact ⟨c :: a, List.suffix_refl _, by simp, by simpa using h1⟩
    · rcases ih h1 with h2 | ⟨a2, h2, h3, h4⟩
      · left; exact h2
      · right; exact ⟨a2, h2.trans (List.suffix_cons c a), h3, h4⟩

theorem isPrefixOf_cons_false (b : Char) (k2 : Str) (c : Char) (R : Str)
    (h : b ≠ c) : List.isPrefixOf (b :: k2) (c :: R) = false := by
  rw [Bool.eq_false_iff]
  intro hp
  rw [List.isPrefixOf_iff_prefix] at hp
  exact h (List.cons_prefix_cons.mp hp).1

theorem containsSub_word_join (w : Str) (hw : w ≠ []) (hww : w.all isWordChar = true) :
    ∀ toks, (∀ t ∈ toks, t.all isWordChar = true) →
      containsSub w (joinSpace toks) = true →
      ∃ t ∈ toks, containsSub w t = true := by
  intro toks
  induction toks with
  | nil =>
    intro _ h
    rw [show joinSpace [] = [] from rfl, containsSub] at h
    cases hw (by cases w with
      | nil => rfl
      | cons a l => simp at h)
  | cons t ts ih =>
    intro hall h
    match ts with
    | [] => exact ⟨t, by simp, h⟩
    | t2 :: ts2 =>
      have hj : joinSpace (t :: t2 :: ts2) = t ++ ' ' :: joinSpace (t2 :: ts2) := rfl
      rw [hj] at h
      obtain ⟨s2, h1, h2⟩ := (containsSub_char _ _).mp h
      rcases suffix_append_cases h1 with h3 | ⟨a2, h3, _, rfl⟩
      · have hcr : containsSub w (' ' :: joinSpace (t2 :: ts2)) = true :=
          (containsSub_char _ _).mpr ⟨s2, h3, h2⟩
        rw [containsSub, Bool.or_eq_true] at hcr
        rcases hcr with hp | hcr
        · rw [isPrefixOf_false_of_head w hw hww ' ' (by decide) _] at hp
          cases hp
        · obtain ⟨t0, ht0, hc0⟩ := ih (fun x hx => hall x (List.mem_cons_of_mem t hx)) hcr
          exact ⟨t0, List.mem_cons_of_mem t ht0, hc0⟩
      · obtain ⟨u, hu⟩ := h2
        -- hu : w ++ u = a2 ++ ' ' :: joinSpace (t2 :: ts2)
        rcases List.append_eq_append_iff.mp hu with ⟨x, hx1, _⟩ | ⟨y, hy1, hy2⟩
        · -- a2 = w ++ x: w is a prefix of a2, which is a suffix of t
          refine ⟨t, by simp, (containsSub_char _ _).mpr ⟨a2, h3, ?_⟩⟩
          rw [hx1]
          exact List.prefix_append w x
        · -- w = a2 ++ y
          match y, hy1, hy2 with
          | [], hy1, _ =>
            have hwa : w = a2 := by simpa using hy1
            refine ⟨t, by simp, (containsSub_char _ _).mpr ⟨a2, h3, ?_⟩⟩
            rw [hwa]
          | d :: y2, hy1, hy2 =>
            exfalso
            have hd : ' ' = d := by
              simpa using congrArg List.head? hy2
            have hdw : isWordChar d = true := by
              refine List.all_eq_true.mp hww d ?_
              rw [hy1]
              simp
            rw [← hd] at hdw
            cases hdw

theorem containsSub_wordspace_join (w : Str) (hw : w ≠ [])
    (hww : w.all isWordChar = true) :
    ∀ toks, (∀ t ∈ toks, t.all isWordChar = true) →
      containsSub (w ++ [' ']) (joinSpace toks) = true →
      ∃ t ∈ toks, w <:+ t := by
  intro toks
  induction toks with
  | nil =>
    intro _ h
    rw [show joinSpace [] = [] from rfl, containsSub] at h
    simp at h
  | cons t ts ih =>
    intro hall h
    match ts with
    | [] =>
      exfalso
      have := containsSub_subset _ _ h ' ' (by simp)
      have hsp := List.all_eq_true.mp (hall t (by simp)) ' ' this
      cases hsp
    | t2 :: ts2 =>
      have hj : joinSpace (t :: t2 :: ts2) = t ++ ' ' :: joinSpace (t2 :: ts2) := rfl
      rw [hj] at h
      obtain ⟨s2, h1, h2⟩ := (containsSub_char _ _).mp h
      rcases suffix_append_cases h1 with h3 | ⟨a2, h3, _, rfl⟩
      · have hcr : containsSub (w ++ [' ']) (' ' :: joinSpace (t2 :: ts2)) = true :=
          (containsSub_char _ _).mpr ⟨s2, h3, h2⟩
        rw [containsSub, Bool.or_eq_true] at hcr
        rcases hcr with hp | hcr
        · exfalso
          obtain ⟨b, w2, rfl⟩ : ∃ b w2, w = b :: w2 := by
            cases w with
            | nil => exact absurd rfl hw
            | cons a l => exact ⟨a, l, rfl⟩
          have hbw : isWordChar b = true := by
            simp only [List.all_cons, Bool.and_eq_true] at hww
            exact hww.1
          have hbne : b ≠ ' ' := by
            intro hb
            rw [hb] at hbw
            cases hbw
          rw [List.cons_append, isPrefixOf_cons_false b (w2 ++ [' ']) ' ' _ hbne] at hp
          cases hp
        · obtain ⟨t0, ht0, hc0⟩ := ih (fun x hx => hall x (List.mem_cons_of_mem t hx)) hcr
          exact ⟨t0, List.mem_cons_of_mem t ht0, hc0⟩
      · obtain ⟨u, hu⟩ := h2
        rw [List.append_assoc] at hu
        -- hu : w ++ ([' '] ++ u) = a2 ++ (' ' :: joinSpace (t2 :: ts2))
        rcases List.append_eq_append_iff.mp hu with ⟨x, hx1, hx2⟩ | ⟨y, hy1, hy2⟩
        · -- a2 = w ++ x and [' '] ++ u = x ++ ' ' :: joinSpace _
          match x, hx1, hx2 with
          | [], hx1, _ =>
            exact ⟨t, by simp,
              by rw [show a2 = w from (by simpa using hx1)] at h3; exact h3⟩
          | d :: x2, hx1, hx2 =>
            exfalso
            have hd : ' ' = d := by
              simpa using congrArg List.head? hx2
            have hdt : d ∈ t := by
              have : d ∈ a2 := by rw [hx1]; simp
              exact h3.subset this
            have hdw := List.all_eq_true.mp (hall t (by simp)) d hdt
            rw [← hd] at hdw
            cases hdw
        · -- w = a2 ++ y and ' ' :: joinSpace _ = y ++ ([' '] ++ u)
          match y, hy1, hy2 with
          | [], hy1, _ =>
            have hwa : w = a2 := by simpa using hy1
            exact ⟨t, by simp, by rw [← hwa] at h3; exact h3⟩
          | d :: y2, hy1, hy2 =>
            exfalso
            have hd : ' ' = d := by
              simpa using congrArg List.head? hy2
            have hdw : isWordChar d = true := by
              refine List.all_eq_true.mp hww d ?_
              rw [hy1]
              simp
            rw [← hd] at hdw
            cases hdw

theorem pyReplaceGo_id (pat rep : Str) :
    ∀ n s, containsSub pat s = false → pyReplaceGo pat rep n s = s := by
  intro n
  induction n with
  | zero => intro s _; rfl
  | succ n ih =>
    intro s h
    match s with
    | [] => rfl
    | c :: cs =>
      rw [containsSub, Bool.or_eq_false_iff] at h
      rw [pyReplaceGo, if_neg (by rw [h.1]; simp), ih cs h.2]

theorem pyReplace_id (pat rep s : Str) (h : containsSub pat s = false) :
    pyReplace pat rep s = s :=
  pyReplaceGo_id pat rep _ s h

theorem stripDecorator_id (name : Str) (c0 : Char) (hh : name.headD ' ' = c0)
    (hn : name ≠ []) :
    ∀ s, c0 ∉ s → stripDecorator name s = s := by
  intro s
  induction s with
  | nil => intro _; rfl
  | cons c cs ih =>
    intro h
    obtain ⟨b, n2, rfl⟩ : ∃ b n2, name = b :: n2 := by
      cases name with
      | nil => exact absurd rfl hn
      | cons a l => exact ⟨a, l, rfl⟩
    have hb : b = c0 := by simpa using hh
    have hbc : b ≠ c := by
      intro he
      apply h
      rw [← hb, he]
      exact List.mem_cons_self c cs
    rw [stripDecorator, if_neg (by rw [isPrefixOf_cons_false b n2 c cs hbc]; simp)]
    rw [ih (fun hx => h (List.mem_cons_of_mem c hx))]

theorem containsSub_false_of_not_mem (pat s : Str) (c : Char) (hc : c ∈ pat)
    (hs : c ∉ s) : containsSub pat s = false := by
  rw [Bool.eq_false_iff]
  intro h
  exact hs (containsSub_subset pat s h c hc)

theorem word_not_space (c : Char) (h : isWordChar c = true) : isSpaceChar c = false := by
  rw [Bool.eq_false_iff]
  intro hs
  rw [isSpaceChar] at hs
  simp only [Bool.or_eq_true, decide_eq_true_eq] at hs
  rcases hs with ((((rfl | rfl) | rfl) | rfl) | rfl) | rfl <;> exact absurd h (by decide)

theorem joinSpace_noQuote (toks : List Str) (h : ∀ t ∈ toks, wfTok t = true) :
    ∀ c ∈ joinSpace toks, c ≠ squote ∧ c ≠ dquote := by
  intro c hc
  rcases joinSpace_chars toks (fun t ht => wfTok_all (h t ht)) c hc with hw | rfl
  · constructor
    · intro he
      rw [he] at hw
      exact absurd hw (by decide)
    · intro he
      rw [he] at hw
      exact absurd hw (by decide)
  · exact ⟨by decide, by decide⟩

theorem joinSpace_not_mem (toks : List Str) (h : ∀ t ∈ toks, wfTok t = true)
    (c : Char) (hcw : isWordChar c = false) (hcs : c ≠ ' ') :
    c ∉ joinSpace toks := by
  intro hm
  rcases joinSpace_chars toks (fun t ht => wfTok_all (h t ht)) c hm with hw | hsp
  · rw [hcw] at hw
    cases hw
  · exact hcs hsp

theorem fixSyntaxIssues_joinSpace (toks : List Str)
    (hwf : ∀ t ∈ toks, wfTok t = true)
    (hfix : ∀ t ∈ toks, ¬(strOf "list" <:+ t) ∧ ¬(strOf "dict" <:+ t) ∧
      containsSub (strOf "L_plus_del") t = false) :
    fixSyntaxIssues (joinSpace toks) = joinSpace toks := by
  have hallw : ∀ t ∈ toks, t.all isWordChar = true := fun t ht => wfTok_all (hwf t ht)
  have hat : '@' ∉ joinSpace toks := joinSpace_not_mem toks hwf '@' (by decide) (by decide)
  have heqc : '=' ∉ joinSpace toks := joinSpace_not_mem toks hwf '=' (by decide) (by decide)
  have hlist : containsSub (strOf "list ") (joinSpace toks) = false := by
    rw [Bool.eq_false_iff]
    intro h
    have h2 : containsSub (strOf "list" ++ [' ']) (joinSpace toks) = true := h
    obtain ⟨t, ht, hsuf⟩ := containsSub_wordspace_join (strOf "list") (by decide)
      (by decide) toks hallw h2
    exact (hfix t ht).1 hsuf
  have hdict : containsSub (strOf "dict ") (joinSpace toks) = false := by
    rw [Bool.eq_false_iff]
    intro h
    have h2 : containsSub (strOf "dict" ++ [' ']) (joinSpace toks) = true := h
    obtain ⟨t, ht, hsuf⟩ := containsSub_wordspace_join (strOf "dict") (by decide)
      (by decide) toks hallw h2
    exact (hfix t ht).2.1 hsuf
  have hlpd : containsSub (strOf "L_plus_del") (joinSpace toks) = false := by
    rw [Bool.eq_false_iff]
    intro h
    obtain ⟨t, ht, hc⟩ := containsSub_word_join (strOf "L_plus_del") (by decide)
      (by decide) toks hallw h
    rw [(hfix t ht).2.2] at hc
    cases hc
  rw [fixSyntaxIssues]
  rw [stripDecorator_id (strOf "@property") '@' (by rfl) (by decide) _ hat]
  rw [stripDecorator_id (strOf "@staticmethod") '@' (by rfl) (by decide) _ hat]
  rw [stripDecorator_id (strOf "@classmethod") '@' (by rfl) (by decide) _ hat]
  rw [pyReplace_id _ _ _ (containsSub_false_of_not_mem _ _ '=' (by decide) heqc)]
  rw [pyReplace_id _ _ _ hlist]
  rw [pyReplace_id _ _ _ hdict]
  rw [pyReplace_id _ _ _ hlpd]

theorem fixIndentation_joinSpace (toks : List Str) (h0 : toks ≠ [])
    (hwf : ∀ t ∈ toks, wfTok t = true) :
    fixIndentation (joinSpace toks) = joinSpace toks := by
  have hnl : nlChar ∉ joinSpace toks :=
    joinSpace_not_mem toks hwf nlChar (by decide) (by decide)
  rw [fixIndentation, splitLines_single _ hnl]
  show joinLines [fixIndentLine (joinSpace toks)] = joinSpace toks
  show fixIndentLine (joinSpace toks) = joinSpace toks
  have hhead : ∀ c, (joinSpace toks).head? = some c → isSpaceChar c = false := by
    intro c hc
    obtain ⟨t0, ts, rfl⟩ : ∃ t0 ts, toks = t0 :: ts := by
      cases toks with
      | nil => exact absurd rfl h0
      | cons a l => exact ⟨a, l, rfl⟩
    obtain ⟨c0, t02, rfl⟩ : ∃ c0 t02, t0 = c0 :: t02 := by
      have hne := wfTok_ne_nil (hwf t0 (by simp))
      cases t0 with
      | nil => exact absurd rfl hne
      | cons a l => exact ⟨a, l, rfl⟩
    have hcw : isWordChar c0 = true := by
      have := wfTok_all (hwf (c0 :: t02) (by simp))
      simp only [List.all_cons, Bool.and_eq_true] at this
      exact this.1
    have hh : (joinSpace ((c0 :: t02) :: ts)).head? = some c0 := by
      match ts with
      | [] => rfl
      | t2 :: ts2 => rfl
    rw [hh] at hc
    cases hc
    exact word_not_space _ hcw
  have hlstrip : lstrip (joinSpace toks) = joinSpace toks :=
    lstrip_no_space_head _ hhead
  rw [fixIndentLine]
  rw [hlstrip]
  simp

theorem map_map_id_of_mem {α : Type} (f g : α → α) (S : List α)
    (hfg : ∀ t ∈ S, f (g t) = t) :
    ∀ l : List α, (∀ t ∈ l, t ∈ S) → (l.map g).map f = l := by
  intro l
  induction l with
  | nil => intro _; rfl
  | cons a l2 ih =>
    intro h
    simp only [List.map_cons]
    rw [hfg a (h a (by simp)), ih (fun t ht => h t (by simp [ht]))]

/-! ## How the syntax fix-ups act on lines

The reverse direction of the idempotence analysis needs two observables
of a text: its number of lines and the lstripped content of each line.
`_fix_indentation` preserves both (it only rewrites leading whitespace
line by line), while each `_fix_syntax_issues` rule, whenever it
changes anything, moves one of them irreversibly: deleting rules
strictly shrink the total lstripped mass, the decorator rules strictly
drop a line or trailing lstripped whitespace, and the one
length-preserving replacement rewrites lstripped content in place. -/

theorem pyReplaceGo_fuel (pat rep : Str) :
    ∀ N s, s.length ≤ N → ∀ n m, s.length ≤ n → s.length ≤ m →
      pyReplaceGo pat rep n s = pyReplaceGo pat rep m s := by
  intro N
  induction N with
  | zero =>
    intro s hs n m _ _
    have : s = [] := by cases s <;> simp_all
    subst this
    cases n <;> cases m <;> rfl
  | succ N ih =>
    intro s hs n m hn hm
    match s with
    | [] => cases n <;> cases m <;> rfl
    | c :: cs =>
      cases n with
      | zero => simp at hn
      | succ n =>
        cases m with
        | zero => simp at hm
        | succ m =>
          rw [pyReplaceGo, pyReplaceGo]
          by_cases hb : (!pat.isEmpty && pat.isPrefixOf (c :: cs)) = true
          · rw [if_pos hb, if_pos hb]
            congr 1
            have hkne : 1 ≤ pat.length := by
              cases hk : pat with
              | nil => rw [hk] at hb; simp at hb
              | cons a l => simp
            have hd : (List.drop pat.length (c :: cs)).length =
                cs.length + 1 - pat.length := by simp
            refine ih _ (by rw [hd]; simp at hs; omega) n m ?_ ?_
            · rw [hd]; simp at hn; omega
            · rw [hd]; simp at hm; omega
          · rw [if_neg hb, if_neg hb]
            congr 1
            exact ih cs (by simp at hs; omega) n m (by simp at hn; omega)
              (by simp at hm; omega)

theorem pyReplace_eq_go (pat rep s : Str) (n : Nat) (h : s.length ≤ n) :
    pyReplace pat rep s = pyReplaceGo pat rep n s := by
  rw [pyReplace]
  exact pyReplaceGo_fuel pat rep (s.length + 1) s (by omega) _ n (by omega) h

theorem pyReplace_nil (pat rep : Str) : pyReplace pat rep [] = [] := rfl

theorem pyReplace_cons_pos (pat rep : Str) (c : Char) (cs : Str) (hp : pat ≠ [])
    (hpre : pat.isPrefixOf (c :: cs) = true) :
    pyReplace pat rep (c :: cs) =
      rep ++ pyReplace pat rep (List.drop pat.length (c :: cs)) := by
  obtain ⟨p0, pt, rfl⟩ : ∃ p0 pt, pat = p0 :: pt := by
    cases pat with
    | nil => exact absurd rfl hp
    | cons a l => exact ⟨a, l, rfl⟩
  have hb : (!(p0 :: pt).isEmpty && (p0 :: pt).isPrefixOf (c :: cs)) = true := by
    simp [hpre]
  rw [pyReplace, show (c :: cs).length + 1 = cs.length + 1 + 1 from by simp,
    pyReplaceGo, if_pos hb]
  congr 1
  exact (pyReplace_eq_go _ rep _ _ (by simp; omega)).symm

theorem pyReplace_cons_neg (pat rep : Str) (c : Char) (cs : Str)
    (hb : ¬((!pat.isEmpty && pat.isPrefixOf (c :: cs)) = true)) :
    pyReplace pat rep (c :: cs) = c :: pyReplace pat rep cs := by
  rw [pyReplace, show (c :: cs).length + 1 = cs.length + 1 + 1 from by simp,
    pyReplaceGo, if_neg hb]
  congr 1

theorem mem_pyReplace (pat rep : Str) :
    ∀ N s, s.length ≤ N → ∀ c, c ∈ pyReplace pat rep s → c ∈ s ∨ c ∈ rep := by
  intro N
  induction N with
  | zero =>
    intro s hs c hc
    have : s = [] := by cases s <;> simp_all
    subst this
    rw [pyReplace_nil] at hc
    cases hc
  | succ N ih =>
    intro s hs c hc
    match s with
    | [] =>
      rw [pyReplace_nil] at hc
      cases hc
    | a :: as =>
      by_cases hb : (!pat.isEmpty && pat.isPrefixOf (a :: as)) = true
      · have hp : pat ≠ [] := by
          intro he
          rw [he] at hb
          simp at hb
        have hkne : 1 ≤ pat.length := by
          cases hk : pat with
          | nil => exact absurd hk hp
          | cons x l => simp
        have hpre : pat.isPrefixOf (a :: as) = true := by
          cases hq : pat.isPrefixOf (a :: as) with
          | true => rfl
          | false => rw [hq] at hb; simp at hb
        rw [pyReplace_cons_pos pat rep a as hp hpre] at hc
        rcases List.mem_append.mp hc with h1 | h1
        · right; exact h1
        · rcases ih (List.drop pat.length (a :: as)) (by simp at hs ⊢; omega) c h1 with
            h2 | h2
          · left; exact List.drop_subset _ _ h2
          · right; exact h2
      · rw [pyReplace_cons_neg pat rep a as hb] at hc
        rcases List.mem_cons.mp hc with rfl | hm
        · left; simp
        · rcases ih as (by simp at hs; omega) c hm with h2 | h2
          · left; exact List.mem_cons_of_mem a h2
          · right; exact h2

theorem pyReplace_length_le (pat rep : Str) (hlen : rep.length ≤ pat.length) :
    ∀ N s, s.length ≤ N → (pyReplace pat rep s).length ≤ s.length := by
  intro N
  induction N with
  | zero =>
    intro s hs
    have : s = [] := by cases s <;> simp_all
    subst this
    rw [pyReplace_nil]
  | succ N ih =>
    intro s hs
    match s with
    | [] => rw [pyReplace_nil]
    | a :: as =>
      by_cases hb : (!pat.isEmpty && pat.isPrefixOf (a :: as)) = true
      · have hp : pat ≠ [] := by
          intro he
          rw [he] at hb
          simp at hb
        have hkne : 1 ≤ pat.length := by
          cases hk : pat with
          | nil => exact absurd hk hp
          | cons x l => simp
        have hpre : pat.isPrefixOf (a :: as) = true := by
          cases hq : pat.isPrefixOf (a :: as) with
          | true => rfl
          | false => rw [hq] at hb; simp at hb
        have hple : pat.length ≤ as.length + 1 := by
          have := List.IsPrefix.length_le (List.isPrefixOf_iff_prefix.mp hpre)
          simpa using this
        rw [pyReplace_cons_pos pat rep a as hp hpre]
        have hrec := ih (List.drop pat.length (a :: as)) (by simp at hs ⊢; omega)
        simp only [List.length_append, List.length_drop] at hrec ⊢
        simp at hrec ⊢
        omega
      · rw [pyReplace_cons_neg pat rep a as hb]
        have hrec := ih as (by simp at hs; omega)
        simp
        omega

theorem pyReplace_length_lt (pat rep : Str) (hlen : rep.length < pat.length) :
    ∀ N s, s.length ≤ N → pyReplace pat rep s ≠ s →
      (pyReplace pat rep s).length < s.length := by
  intro N
  induction N with
  | zero =>
    intro s hs hne
    have : s = [] := by cases s <;> simp_all
    subst this
    exact absurd (pyReplace_nil pat rep) hne
  | succ N ih =>
    intro s hs hne
    match s with
    | [] => exact absurd (pyReplace_nil pat rep) hne
    | a :: as =>
      by_cases hb : (!pat.isEmpty && pat.isPrefixOf (a :: as)) = true
      · have hp : pat ≠ [] := by
          intro he
          rw [he] at hb
          simp at hb
        have hkne : 1 ≤ pat.length := by
          cases hk : pat with
          | nil => exact absurd hk hp
          | cons x l => simp
        have hpre : pat.isPrefixOf (a :: as) = true := by
          cases hq : pat.isPrefixOf (a :: as) with
          | true => rfl
          | false => rw [hq] at hb; simp at hb
        have hple : pat.length ≤ as.length + 1 := by
          have := List.IsPrefix.length_le (List.isPrefixOf_iff_prefix.mp hpre)
          simpa using this
        rw [pyReplace_cons_pos pat rep a as hp hpre]
        have hrec := pyReplace_length_le pat rep (by omega)
          (List.drop pat.length (a :: as)).length _ le_rfl
        simp only [List.length_append]
        simp at hrec ⊢
        omega
      · rw [pyReplace_cons_neg pat rep a as hb]
        rw [pyReplace_cons_neg pat rep a as hb] at hne
        have hne2 : pyReplace pat rep as ≠ as := by
          intro he
          rw [he] at hne
          exact hne rfl
        have hrec := ih as (by simp at hs; omega) hne2
        simp
        omega

theorem pyReplace_length_eq (pat rep : Str) (hlen : rep.length = pat.length) :
    ∀ N s, s.length ≤ N → (pyReplace pat rep s).length = s.length := by
  intro N
  induction N with
  | zero =>
    intro s hs
    have : s = [] := by cases s <;> simp_all
    subst this
    rw [pyReplace_nil]
  | succ N ih =>
    intro s hs
    match s with
    | [] => rw [pyReplace_nil]
    | a :: as =>
      by_cases hb : (!pat.isEmpty && pat.isPrefixOf (a :: as)) = true
      · have hp : pat ≠ [] := by
          intro he
          rw [he] at hb
          simp at hb
        have hkne : 1 ≤ pat.length := by
          cases hk : pat with
          | nil => exact absurd hk hp
          | cons x l => simp
        have hpre : pat.isPrefixOf (a :: as) = true := by
          cases hq : pat.isPrefixOf (a :: as) with
          | true => rfl
          | false => rw [hq] at hb; simp at hb
        have hple : pat.length ≤ as.length + 1 := by
          have := List.IsPrefix.length_le (List.isPrefixOf_iff_prefix.mp hpre)
          simpa using this
        rw [pyReplace_cons_pos pat rep a as hp hpre]
        have hrec := ih (List.drop pat.length (a :: as)) (by simp at hs ⊢; omega)
        simp only [List.length_append]
        simp at hrec ⊢
        omega
      · rw [pyReplace_cons_neg pat rep a as hb]
        have hrec := ih as (by simp at hs; omega)
        simp
        omega

theorem isPrefixOf_append_nl (pat u v : Str) (hnp : nlChar ∉ pat) :
    pat.isPrefixOf (u ++ nlChar :: v) = pat.isPrefixOf u := by
  cases h1 : pat.isPrefixOf u with
  | true =>
    have h2 : pat <+: u ++ nlChar :: v :=
      (List.isPrefixOf_iff_prefix.mp h1).trans (List.prefix_append u _)
    exact List.isPrefixOf_iff_prefix.mpr h2
  | false =>
    cases h2 : pat.isPrefixOf (u ++ nlChar :: v) with
    | false => rfl
    | true =>
      exfalso
      obtain ⟨w, hw⟩ := List.isPrefixOf_iff_prefix.mp h2
      rcases List.append_eq_append_iff.mp hw.symm with ⟨x, hx1, hx2⟩ | ⟨y, hy1, _⟩
      · match x, hx1, hx2 with
        | [], hx1, _ =>
          have : pat.isPrefixOf u = true := by
            refine List.isPrefixOf_iff_prefix.mpr ?_
            rw [hx1]
            simp
          rw [this] at h1
          cases h1
        | z :: x2, hx1, hx2 =>
          have hz : nlChar = z := by simpa using congrArg List.head? hx2
          refine hnp ?_
          rw [hx1, ← hz]
          simp
      · have : pat.isPrefixOf u = true := by
          refine List.isPrefixOf_iff_prefix.mpr ?_
          exact ⟨y, hy1.symm⟩
        rw [this] at h1
        cases h1

theorem nl_no_match (pat v : Str) (hp : pat ≠ []) (hnp : nlChar ∉ pat) :
    ¬((!pat.isEmpty && pat.isPrefixOf (nlChar :: v)) = true) := by
  intro hcontra
  have hpre : pat.isPrefixOf (nlChar :: v) = true := by
    cases hq : pat.isPrefixOf (nlChar :: v) with
    | true => rfl
    | false => rw [hq] at hcontra; simp at hcontra
  obtain ⟨p0, pt, rfl⟩ : ∃ p0 pt, pat = p0 :: pt := by
    cases pat with
    | nil => exact absurd rfl hp
    | cons a l => exact ⟨a, l, rfl⟩
  have h1 := (List.cons_prefix_cons.mp (List.isPrefixOf_iff_prefix.mp hpre)).1
  exact hnp (by rw [h1]; simp)

theorem pyReplace_append_nl (pat rep : Str) (hp : pat ≠ []) (hnp : nlChar ∉ pat) :
    ∀ N u, u.length ≤ N → ∀ v,
      pyReplace pat rep (u ++ nlChar :: v) =
        pyReplace pat rep u ++ nlChar :: pyReplace pat rep v := by
  intro N
  induction N with
  | zero =>
    intro u hu v
    have : u = [] := by cases u <;> simp_all
    subst this
    simp only [List.nil_append]
    rw [pyReplace_cons_neg pat rep nlChar v (nl_no_match pat v hp hnp), pyReplace_nil]
    rfl
  | succ N ih =>
    intro u hu v
    match u with
    | [] =>
      simp only [List.nil_append]
      rw [pyReplace_cons_neg pat rep nlChar v (nl_no_match pat v hp hnp), pyReplace_nil]
      rfl
    | c :: cs =>
      by_cases hb : (!pat.isEmpty && pat.isPrefixOf (c :: cs)) = true
      · have hpre : pat.isPrefixOf (c :: cs) = true := by
          cases hq : pat.isPrefixOf (c :: cs) with
          | true => rfl
          | false => rw [hq] at hb; simp at hb
        have hkne : 1 ≤ pat.length := by
          cases hk : pat with
          | nil => exact absurd hk hp
          | cons x l => simp
        have hple : pat.length ≤ cs.length + 1 := by
          have := List.IsPrefix.length_le (List.isPrefixOf_iff_prefix.mp hpre)
          simpa using this
        have hpre2 : pat.isPrefixOf (c :: (cs ++ nlChar :: v)) = true := by
          have := isPrefixOf_append_nl pat (c :: cs) v hnp
          rw [show (c :: cs) ++ nlChar :: v = c :: (cs ++ nlChar :: v) from rfl] at this
          rw [this]
          exact hpre
        show pyReplace pat rep (c :: (cs ++ nlChar :: v)) = _
        rw [pyReplace_cons_pos pat rep c (cs ++ nlChar :: v) hp hpre2,
          pyReplace_cons_pos pat rep c cs hp hpre]
        rw [List.append_assoc]
        congr 1
        have hdrop : List.drop pat.length (c :: (cs ++ nlChar :: v)) =
            List.drop pat.length (c :: cs) ++ nlChar :: v := by
          rw [show c :: (cs ++ nlChar :: v) = (c :: cs) ++ nlChar :: v from rfl]
          exact List.drop_append_of_le_length (by simpa using hple)
        rw [hdrop]
        exact ih (List.drop pat.length (c :: cs)) (by simp at hu ⊢; omega) v
      · have hb2 : ¬((!pat.isEmpty && pat.isPrefixOf (c :: (cs ++ nlChar :: v))) = true) := by
          have := isPrefixOf_append_nl pat (c :: cs) v hnp
          rw [show (c :: cs) ++ nlChar :: v = c :: (cs ++ nlChar :: v) from rfl] at this
          rw [this]
          exact hb
        show pyReplace pat rep (c :: (cs ++ nlChar :: v)) = _
        rw [pyReplace_cons_neg pat rep c (cs ++ nlChar :: v) hb2,
          pyReplace_cons_neg pat rep c cs hb]
        rw [ih cs (by simp at hu; omega) v]
        rfl

theorem exists_first_nl (s : Str) (h : nlChar ∈ s) :
    ∃ u v, s = u ++ nlChar :: v ∧ nlChar ∉ u := by
  induction s with
  | nil => cases h
  | cons c cs ih =>
    by_cases hc : c = nlChar
    · exact ⟨[], cs, by simp [hc], by simp⟩
    · have h2 : nlChar ∈ cs := by
        rcases List.mem_cons.mp h with h1 | h1
        · exact absurd h1.symm hc
        · exact h1
      obtain ⟨u, v, h3, h4⟩ := ih h2
      refine ⟨c :: u, v, by simp [h3], ?_⟩
      intro hm
      rcases List.mem_cons.mp hm with h5 | h5
      · exact hc h5.symm
      · exact h4 h5

theorem splitLines_pyReplace (pat rep : Str) (hp : pat ≠ []) (hnp : nlChar ∉ pat)
    (hnr : nlChar ∉ rep) :
    ∀ N s, s.length ≤ N →
      splitLines (pyReplace pat rep s) = (splitLines s).map (pyReplace pat rep) := by
  intro N
  induction N with
  | zero =>
    intro s hs
    have : s = [] := by cases s <;> simp_all
    subst this
    rw [pyReplace_nil]
    show splitLines [] = (splitLines []).map (pyReplace pat rep)
    rw [show splitLines ([] : Str) = [[]] from rfl]
    rw [List.map_cons, pyReplace_nil]
    rfl
  | succ N ih =>
    intro s hs
    by_cases hmem : nlChar ∈ s
    · obtain ⟨u, v, rfl, hu⟩ := exists_first_nl s hmem
      have hnl2 : nlChar ∉ pyReplace pat rep u := by
        intro hmem2
        rcases mem_pyReplace pat rep u.length u le_rfl nlChar hmem2 with h1 | h1
        · exact hu h1
        · exact hnr h1
      rw [pyReplace_append_nl pat rep hp hnp u.length u le_rfl v]
      rw [splitLines_append_nl u v hu]
      rw [splitLines_append_nl _ _ hnl2]
      rw [List.map_cons]
      congr 1
      exact ih v (by simp at hs; omega)
    · have hnl2 : nlChar ∉ pyReplace pat rep s := by
        intro hmem2
        rcases mem_pyReplace pat rep s.length s le_rfl nlChar hmem2 with h1 | h1
        · exact hmem h1
        · exact hnr h1
      rw [splitLines_single s hmem, splitLines_single _ hnl2]
      rfl

theorem pyReplace_ws_front (pat rep : Str) (hp : pat ≠ [])
    (hph : ∀ c, pat.head? = some c → isSpaceChar c = false) :
    ∀ w, (∀ c ∈ w, isSpaceChar c = true) → ∀ t,
      pyReplace pat rep (w ++ t) = w ++ pyReplace pat rep t := by
  intro w
  induction w with
  | nil => intro _ t; simp
  | cons a w2 ih =>
    intro hw t
    have hb : ¬((!pat.isEmpty && pat.isPrefixOf (a :: (w2 ++ t))) = true) := by
      intro hcontra
      have hpre : pat.isPrefixOf (a :: (w2 ++ t)) = true := by
        cases hq : pat.isPrefixOf (a :: (w2 ++ t)) with
        | true => rfl
        | false => rw [hq] at hcontra; simp at hcontra
      obtain ⟨p0, pt, rfl⟩ : ∃ p0 pt, pat = p0 :: pt := by
        cases pat with
        | nil => exact absurd rfl hp
        | cons x l => exact ⟨x, l, rfl⟩
      have h1 := (List.cons_prefix_cons.mp (List.isPrefixOf_iff_prefix.mp hpre)).1
      have hsp := hw a (by simp)
      have hns := hph p0 rfl
      rw [h1] at hns
      rw [hns] at hsp
      cases hsp
    show pyReplace pat rep (a :: (w2 ++ t)) = _
    rw [pyReplace_cons_neg pat rep a (w2 ++ t) hb,
      ih (fun c hc => hw c (List.mem_cons_of_mem a hc)) t]
    rfl

theorem pyReplace_head_not_space (pat rep : Str) (hr : rep ≠ [])
    (hrh : ∀ c, rep.head? = some c → isSpaceChar c = false)
    (t : Str) (ht : t ≠ []) (hth : ∀ c, t.head? = some c → isSpaceChar c = false) :
    pyReplace pat rep t ≠ [] ∧
      ∀ c, (pyReplace pat rep t).head? = some c → isSpaceChar c = false := by
  obtain ⟨a, as, rfl⟩ : ∃ a as, t = a :: as := by
    cases t with
    | nil => exact absurd rfl ht
    | cons x l => exact ⟨x, l, rfl⟩
  by_cases hb : (!pat.isEmpty && pat.isPrefixOf (a :: as)) = true
  · have hp : pat ≠ [] := by
      intro he
      rw [he] at hb
      simp at hb
    have hpre : pat.isPrefixOf (a :: as) = true := by
      cases hq : pat.isPrefixOf (a :: as) with
      | true => rfl
      | false => rw [hq] at hb; simp at hb
    rw [pyReplace_cons_pos pat rep a as hp hpre]
    obtain ⟨r0, rt, rfl⟩ : ∃ r0 rt, rep = r0 :: rt := by
      cases rep with
      | nil => exact absurd rfl hr
      | cons x l => exact ⟨x, l, rfl⟩
    refine ⟨by simp, ?_⟩
    intro c hc
    have hc2 : r0 = c := by simpa using hc
    rw [← hc2]
    exact hrh r0 rfl
  · rw [pyReplace_cons_neg pat rep a as hb]
    refine ⟨by simp, ?_⟩
    intro c hc
    have hc2 : a = c := by simpa using hc
    rw [← hc2]
    exact hth a rfl

theorem lstrip_pyReplace (pat rep : Str) (hp : pat ≠ [])
    (hph : ∀ c, pat.head? = some c → isSpaceChar c = false)
    (hr : rep ≠ []) (hrh : ∀ c, rep.head? = some c → isSpaceChar c = false) (l : Str) :
    lstrip (pyReplace pat rep l) = pyReplace pat rep (lstrip l) := by
  have hdecomp : l.takeWhile isSpaceChar ++ lstrip l = l := by
    rw [lstrip]
    exact @List.takeWhile_append_dropWhile _ isSpaceChar l
  have hw : ∀ c ∈ l.takeWhile isSpaceChar, isSpaceChar c = true := by
    intro c hc
    exact List.mem_takeWhile_imp hc
  have hfac : pyReplace pat rep l =
      l.takeWhile isSpaceChar ++ pyReplace pat rep (lstrip l) := by
    rw [← hdecomp]
    rw [pyReplace_ws_front pat rep hp hph _ hw (lstrip l)]
    rw [hdecomp]
  rw [hfac, lstrip_append_spaces _ _ (fun c hc => hw c hc)]
  cases hl : lstrip l with
  | nil => rw [pyReplace_nil]; rfl
  | cons c cs =>
    rw [← hl]
    have hlh : ∀ c, (lstrip l).head? = some c → isSpaceChar c = false :=
      lstrip_head_not_space l
    have hpr := pyReplace_head_not_space pat rep hr hrh (lstrip l)
      (by rw [hl]; simp) hlh
    exact lstrip_no_space_head _ hpr.2

theorem pyReplace_id_of_lstrip_id (pat rep : Str) (hp : pat ≠ [])
    (hph : ∀ c, pat.head? = some c → isSpaceChar c = false) (l : Str)
    (h : pyReplace pat rep (lstrip l) = lstrip l) : pyReplace pat rep l = l := by
  have hdecomp : l.takeWhile isSpaceChar ++ lstrip l = l := by
    rw [lstrip]
    exact @List.takeWhile_append_dropWhile _ isSpaceChar l
  have hw : ∀ c ∈ l.takeWhile isSpaceChar, isSpaceChar c = true := by
    intro c hc
    exact List.mem_takeWhile_imp hc
  rw [← hdecomp, pyReplace_ws_front pat rep hp hph _ hw (lstrip l), h]

theorem stripDecorator_cases (name : Str) :
    ∀ s, stripDecorator name s = s ∨
      ∃ a tail, s = a ++ name ++ tail ∧ stripDecorator name s = a ++ name ∧
        (∀ c ∈ tail, isSpaceChar c = true) ∧ tail ≠ [] := by
  intro s
  induction s with
  | nil => left; rfl
  | cons c cs ih =>
    rw [stripDecorator]
    by_cases hb : (name.isPrefixOf (c :: cs) &&
        (List.drop name.length (c :: cs)).all isSpaceChar) = true
    · rw [if_pos hb]
      have hpre : name.isPrefixOf (c :: cs) = true := by
        cases hq : name.isPrefixOf (c :: cs) with
        | true => rfl
        | false => rw [hq] at hb; simp at hb
      have hall : (List.drop name.length (c :: cs)).all isSpaceChar = true := by
        cases hq : (List.drop name.length (c :: cs)).all isSpaceChar with
        | true => rfl
        | false => rw [hq] at hb; simp at hb
      obtain ⟨w, hw⟩ := List.isPrefixOf_iff_prefix.mp hpre
      have hdrop : List.drop name.length (c :: cs) = w := by
        rw [← hw]
        simp
      by_cases hwnil : w = []
      · left
        subst hwnil
        rw [← hw]
        simp
      · right
        refine ⟨[], w, by rw [← hw]; simp, by simp, ?_, hwnil⟩
        intro x hx
        refine List.all_eq_true.mp hall x ?_
        rw [hdrop]
        exact hx
    · rw [if_neg hb]
      rcases ih with h1 | ⟨a, tail, h2, h3, h4, h5⟩
      · left
        rw [h1]
      · right
        refine ⟨c :: a, tail, by simp [h2], ?_, h4, h5⟩
        rw [h3]
        rfl

theorem splitLines_append_no_nl (v : Str) (hv : nlChar ∉ v) :
    ∀ u, ∃ I last, splitLines u = I ++ [last] ∧
      splitLines (u ++ v) = I ++ [last ++ v] := by
  intro u
  induction u with
  | nil =>
    refine ⟨[], [], rfl, ?_⟩
    rw [List.nil_append, splitLines_single v hv]
    rfl
  | cons c cs ih =>
    obtain ⟨I, last, h1, h2⟩ := ih
    by_cases hc : c = nlChar
    · subst hc
      refine ⟨[] :: I, last, ?_, ?_⟩
      · rw [splitLines, if_pos rfl, h1]
        rfl
      · show splitLines (nlChar :: (cs ++ v)) = ([] :: I) ++ [last ++ v]
        rw [splitLines, if_pos rfl, h2]
        rfl
    · cases I with
      | nil =>
        have h1b : splitLines cs = [last] := by simpa using h1
        have h2b : splitLines (cs ++ v) = [last ++ v] := by simpa using h2
        refine ⟨[], c :: last, ?_, ?_⟩
        · rw [splitLines, if_neg hc, h1b]
          rfl
        · show splitLines (c :: (cs ++ v)) = [] ++ [(c :: last) ++ v]
          rw [splitLines, if_neg hc, h2b]
          rfl
      | cons i0 I2 =>
        have h1b : splitLines cs = i0 :: (I2 ++ [last]) := by
          rw [h1]
          rfl
        have h2b : splitLines (cs ++ v) = i0 :: (I2 ++ [last ++ v]) := by
          rw [h2]
          rfl
        refine ⟨(c :: i0) :: I2, last, ?_, ?_⟩
        · rw [splitLines, if_neg hc, h1b]
          rfl
        · show splitLines (c :: (cs ++ v)) = ((c :: i0) :: I2) ++ [last ++ v]
          rw [splitLines, if_neg hc, h2b]
          rfl

theorem length_splitLines_cons_ne (c : Char) (cs : Str) (hc : c ≠ nlChar) :
    (splitLines (c :: cs)).length = (splitLines cs).length := by
  rw [splitLines, if_neg hc]
  cases hsp : splitLines cs with
  | nil => exact absurd hsp (splitLines_ne_nil cs)
  | cons l ls => simp

theorem length_splitLines_append (v : Str) :
    ∀ u, (splitLines (u ++ v)).length + 1 =
      (splitLines u).length + (splitLines v).length := by
  intro u
  induction u with
  | nil =>
    rw [List.nil_append]
    rw [show (splitLines ([] : Str)).length = 1 from rfl]
    omega
  | cons c cs ih =>
    by_cases hc : c = nlChar
    · subst hc
      rw [show (nlChar :: cs) ++ v = nlChar :: (cs ++ v) from rfl]
      rw [splitLines, if_pos rfl]
      rw [show splitLines (nlChar :: cs) = [] :: splitLines cs from by
        rw [splitLines, if_pos rfl]]
      simp only [List.length_cons]
      omega
    · rw [show (c :: cs) ++ v = c :: (cs ++ v) from rfl]
      rw [length_splitLines_cons_ne c (cs ++ v) hc, length_splitLines_cons_ne c cs hc]
      exact ih

theorem length_splitLines_ge_two (v : Str) (h : nlChar ∈ v) :
    2 ≤ (splitLines v).length := by
  obtain ⟨u, w, rfl, hu⟩ := exists_first_nl v h
  rw [splitLines_append_nl u w hu, List.length_cons]
  have h2 : 1 ≤ (splitLines w).length := by
    cases hsp : splitLines w with
    | nil => exact absurd hsp (splitLines_ne_nil w)
    | cons l ls => simp
  omega

theorem lstrip_eq_nil_iff (u : Str) :
    lstrip u = [] ↔ ∀ c ∈ u, isSpaceChar c = true := by
  rw [lstrip, List.dropWhile_eq_nil_iff]

theorem lstrip_append_of_ne_nil (u v : Str) (h : lstrip u ≠ []) :
    lstrip (u ++ v) = lstrip u ++ v := by
  induction u with
  | nil => exact absurd rfl h
  | cons c cs ih =>
    by_cases hc : isSpaceChar c = true
    · have h3 : lstrip (c :: cs) = lstrip cs := by
        rw [lstrip, List.dropWhile_cons_of_pos hc]
        rfl
      rw [h3] at h ⊢
      rw [show (c :: cs) ++ v = c :: (cs ++ v) from rfl]
      have h4 : lstrip (c :: (cs ++ v)) = lstrip (cs ++ v) := by
        rw [lstrip, List.dropWhile_cons_of_pos hc]
        rfl
      rw [h4]
      exact ih h
    · have hcf : isSpaceChar c = false := by
        cases hq : isSpaceChar c with
        | true => exact absurd hq hc
        | false => rfl
      have h3 : lstrip (c :: cs) = c :: cs :=
        lstrip_no_space_head _ (fun x hx => by
          have : c = x := by simpa using hx
          rw [← this]
          exact hcf)
      rw [h3]
      rw [show (c :: cs) ++ v = c :: (cs ++ v) from rfl]
      have h4 : lstrip (c :: (cs ++ v)) = c :: (cs ++ v) :=
        lstrip_no_space_head _ (fun x hx => by
          have : c = x := by simpa using hx
          rw [← this]
          exact hcf)
      rw [h4]

theorem sum_map_le {α : Type} (f g : α → Nat) :
    ∀ l : List α, (∀ a ∈ l, f a ≤ g a) → (l.map f).sum ≤ (l.map g).sum := by
  intro l
  induction l with
  | nil => intro _; simp
  | cons a l2 ih =>
    intro h
    simp only [List.map_cons, List.sum_cons]
    have h1 := h a (by simp)
    have h2 := ih (fun x hx => h x (List.mem_cons_of_mem a hx))
    omega

theorem map_eq_of_sum_eq {α : Type} (f g : α → Nat) :
    ∀ l : List α, (∀ a ∈ l, f a ≤ g a) → (l.map f).sum = (l.map g).sum →
      ∀ a ∈ l, f a = g a := by
  intro l
  induction l with
  | nil => intro _ _ a ha; cases ha
  | cons b l2 ih =>
    intro h hsum a ha
    simp only [List.map_cons, List.sum_cons] at hsum
    have h1 := h b (by simp)
    have h2 := sum_map_le f g l2 (fun x hx => h x (List.mem_cons_of_mem b hx))
    rcases List.mem_cons.mp ha with rfl | ha2
    · omega
    · exact ih (fun x hx => h x (List.mem_cons_of_mem b hx)) (by omega) a ha2

theorem map_eq_map_mem {α β : Type} (f g : α → β) :
    ∀ l : List α, l.map f = l.map g → ∀ a ∈ l, f a = g a := by
  intro l
  induction l with
  | nil => intro _ a ha; cases ha
  | cons b l2 ih =>
    intro h a ha
    simp only [List.map_cons] at h
    injection h with h1 h2
    rcases List.mem_cons.mp ha with rfl | ha2
    · exact h1
    · exact ih h2 a ha2

theorem joinLines_splitLines : ∀ s : Str, joinLines (splitLines s) = s := by
  intro s
  induction s with
  | nil => rfl
  | cons c cs ih =>
    by_cases hc : c = nlChar
    · subst hc
      rw [splitLines, if_pos rfl]
      cases hsp : splitLines cs with
      | nil => exact absurd hsp (splitLines_ne_nil cs)
      | cons l ls =>
        have hj : joinLines ([] :: l :: ls) = [] ++ nlChar :: joinLines (l :: ls) := rfl
        rw [hj, ← hsp, ih]
        rfl
    · rw [splitLines, if_neg hc]
      cases hsp : splitLines cs with
      | nil => exact absurd hsp (splitLines_ne_nil cs)
      | cons l ls =>
        cases ls with
        | nil =>
          show joinLines [c :: l] = c :: cs
          have hl : l = cs := by
            rw [hsp] at ih
            exact ih
          rw [show joinLines [c :: l] = c :: l from rfl, hl]
        | cons l2 ls2 =>
          show joinLines ((c :: l) :: l2 :: ls2) = c :: cs
          have ih2 : l ++ nlChar :: joinLines (l2 :: ls2) = cs := by
            rw [hsp] at ih
            exact ih
          have hj : joinLines ((c :: l) :: l2 :: ls2) =
              c :: (l ++ nlChar :: joinLines (l2 :: ls2)) := rfl
          rw [hj, ih2]

/-- The per-line observables of a text: the lstripped content of every
line, in order. -/
def phiLines (s : Str) : List Str := (splitLines s).map lstrip

/-- Total (lstripped) length over all lines. -/
def lineMass (s : Str) : Nat := ((splitLines s).map (fun l => (lstrip l).length)).sum

theorem phiLines_length (s : Str) : (phiLines s).length = (splitLines s).length := by
  rw [phiLines, List.length_map]

theorem lineMass_eq_phi (s : Str) : lineMass s = ((phiLines s).map List.length).sum := by
  rw [lineMass, phiLines, List.map_map]
  rfl

theorem phi_fixIndentation (s : Str) : phiLines (fixIndentation s) = phiLines s := by
  rw [phiLines, phiLines, fixIndentation]
  rw [splitLines_joinLines]
  · rw [List.map_map]
    apply List.map_congr_left
    intro l _
    exact lstrip_fixIndentLine l
  · intro h
    have := splitLines_ne_nil s
    simp at h
    exact this h
  · intro l hl
    rw [List.mem_map] at hl
    obtain ⟨l0, hl0, rfl⟩ := hl
    exact fixIndentLine_no_nl l0 (splitLines_no_nl s l0 hl0)

theorem py_lines_len (pat rep : Str) (hp : pat ≠ []) (hnp : nlChar ∉ pat)
    (hnr : nlChar ∉ rep) (s : Str) :
    (splitLines (pyReplace pat rep s)).length = (splitLines s).length := by
  rw [splitLines_pyReplace pat rep hp hnp hnr s.length s le_rfl, List.length_map]

theorem lstrip_len_pyReplace_le (pat rep : Str) (hp : pat ≠ [])
    (hph : ∀ c, pat.head? = some c → isSpaceChar c = false)
    (hlen : rep.length ≤ pat.length) (l : Str) :
    (lstrip (pyReplace pat rep l)).length ≤ (lstrip l).length := by
  have hdecomp : l.takeWhile isSpaceChar ++ lstrip l = l := by
    rw [lstrip]
    exact @List.takeWhile_append_dropWhile _ isSpaceChar l
  have hw : ∀ c ∈ l.takeWhile isSpaceChar, isSpaceChar c = true := by
    intro c hc
    exact List.mem_takeWhile_imp hc
  have hfac : pyReplace pat rep l =
      l.takeWhile isSpaceChar ++ pyReplace pat rep (lstrip l) := by
    rw [← hdecomp, pyReplace_ws_front pat rep hp hph _ hw (lstrip l), hdecomp]
  rw [hfac, lstrip_append_spaces _ _ (fun c hc => hw c hc)]
  have h1 : (lstrip (pyReplace pat rep (lstrip l))).length ≤
      (pyReplace pat rep (lstrip l)).length := by
    rw [lstrip]
    exact (List.dropWhile_sublist _).length_le
  have h2 := pyReplace_length_le pat rep hlen (lstrip l).length (lstrip l) le_rfl
  omega

theorem lstrip_len_pyReplace_lt (pat rep : Str) (hp : pat ≠ [])
    (hph : ∀ c, pat.head? = some c → isSpaceChar c = false)
    (hlen : rep.length < pat.length) (l : Str) (hne : pyReplace pat rep l ≠ l) :
    (lstrip (pyReplace pat rep l)).length < (lstrip l).length := by
  have hdecomp : l.takeWhile isSpaceChar ++ lstrip l = l := by
    rw [lstrip]
    exact @List.takeWhile_append_dropWhile _ isSpaceChar l
  have hw : ∀ c ∈ l.takeWhile isSpaceChar, isSpaceChar c = true := by
    intro c hc
    exact List.mem_takeWhile_imp hc
  have hfac : pyReplace pat rep l =
      l.takeWhile isSpaceChar ++ pyReplace pat rep (lstrip l) := by
    rw [← hdecomp, pyReplace_ws_front pat rep hp hph _ hw (lstrip l), hdecomp]
  have hXne : pyReplace pat rep (lstrip l) ≠ lstrip l := by
    intro he
    exact hne (pyReplace_id_of_lstrip_id pat rep hp hph l he)
  have h2 := pyReplace_length_lt pat rep hlen (lstrip l).length (lstrip l) le_rfl hXne
  rw [hfac, lstrip_append_spaces _ _ (fun c hc => hw c hc)]
  have h1 : (lstrip (pyReplace pat rep (lstrip l))).length ≤
      (pyReplace pat rep (lstrip l)).length := by
    rw [lstrip]
    exact (List.dropWhile_sublist _).length_le
  omega

theorem pyReplace_line_id_of_len_eq (pat rep : Str) (hp : pat ≠ [])
    (hph : ∀ c, pat.head? = some c → isSpaceChar c = false)
    (hlen : rep.length < pat.length) (l : Str)
    (h : (lstrip (pyReplace pat rep l)).length = (lstrip l).length) :
    pyReplace pat rep l = l := by
  by_contra hne
  have := lstrip_len_pyReplace_lt pat rep hp hph hlen l hne
  omega

theorem lineMass_pyReplace_le (pat rep : Str) (hp : pat ≠ []) (hnp : nlChar ∉ pat)
    (hnr : nlChar ∉ rep)
    (hph : ∀ c, pat.head? = some c → isSpaceChar c = false)
    (hlen : rep.length ≤ pat.length) (s : Str) :
    lineMass (pyReplace pat rep s) ≤ lineMass s := by
  rw [lineMass, lineMass, splitLines_pyReplace pat rep hp hnp hnr s.length s le_rfl,
    List.map_map]
  refine sum_map_le _ _ (splitLines s) ?_
  intro a _
  exact lstrip_len_pyReplace_le pat rep hp hph hlen a

theorem pyReplace_del_id (pat rep : Str) (hp : pat ≠ []) (hnp : nlChar ∉ pat)
    (hnr : nlChar ∉ rep)
    (hph : ∀ c, pat.head? = some c → isSpaceChar c = false)
    (hlen : rep.length < pat.length) (s : Str)
    (hmass : lineMass (pyReplace pat rep s) = lineMass s) :
    pyReplace pat rep s = s := by
  have hsplit := splitLines_pyReplace pat rep hp hnp hnr s.length s le_rfl
  rw [lineMass, lineMass, hsplit, List.map_map] at hmass
  have hpoint := map_eq_of_sum_eq
    ((fun l => (lstrip l).length) ∘ pyReplace pat rep)
    (fun l => (lstrip l).length) (splitLines s)
    (fun a _ => lstrip_len_pyReplace_le pat rep hp hph (by omega) a) hmass
  have hlines : ∀ l ∈ splitLines s, pyReplace pat rep l = l := by
    intro l hl
    exact pyReplace_line_id_of_len_eq pat rep hp hph hlen l (hpoint l hl)
  have hbuild : pyReplace pat rep s = joinLines (splitLines (pyReplace pat rep s)) :=
    (joinLines_splitLines _).symm
  rw [hbuild, hsplit, List.map_congr_left hlines,
    show (splitLines s).map (fun l => l) = splitLines s from by simp,
    joinLines_splitLines]

theorem pyReplace_main_id (pat rep : Str) (hp : pat ≠ []) (hnp : nlChar ∉ pat)
    (hnr : nlChar ∉ rep)
    (hph : ∀ c, pat.head? = some c → isSpaceChar c = false)
    (hr : rep ≠ [])
    (hrh : ∀ c, rep.head? = some c → isSpaceChar c = false) (s : Str)
    (hphi : phiLines (pyReplace pat rep s) = phiLines s) :
    pyReplace pat rep s = s := by
  have hsplit := splitLines_pyReplace pat rep hp hnp hnr s.length s le_rfl
  rw [phiLines, phiLines, hsplit, List.map_map] at hphi
  have hpoint := map_eq_map_mem (lstrip ∘ pyReplace pat rep) lstrip (splitLines s) hphi
  have hlines : ∀ l ∈ splitLines s, pyReplace pat rep l = l := by
    intro l hl
    have h1 : lstrip (pyReplace pat rep l) = lstrip l := hpoint l hl
    rw [lstrip_pyReplace pat rep hp hph hr hrh l] at h1
    exact pyReplace_id_of_lstrip_id pat rep hp hph l h1
  have hbuild : pyReplace pat rep s = joinLines (splitLines (pyReplace pat rep s)) :=
    (joinLines_splitLines _).symm
  rw [hbuild, hsplit, List.map_congr_left hlines,
    show (splitLines s).map (fun l => l) = splitLines s from by simp,
    joinLines_splitLines]

theorem stripDecorator_measure (name : Str)
    (hnonsp : ∃ c ∈ name, isSpaceChar c = false) (hnnl : nlChar ∉ name) (s : Str) :
    stripDecorator name s = s ∨
      (splitLines (stripDecorator name s)).length < (splitLines s).length ∨
      ((splitLines (stripDecorator name s)).length = (splitLines s).length ∧
        lineMass (stripDecorator name s) < lineMass s) := by
  rcases stripDecorator_cases name s with h1 | ⟨a, tail, hs, hres, hws, htne⟩
  · left
    exact h1
  · right
    by_cases hnl : nlChar ∈ tail
    · left
      rw [hres, hs]
      have hlen := length_splitLines_append tail (a ++ name)
      have hge := length_splitLines_ge_two tail hnl
      omega
    · right
      obtain ⟨I, last, hI1, hI2⟩ := splitLines_append_no_nl tail hnl (a ++ name)
      have hlast : lstrip last ≠ [] := by
        obtain ⟨I2, last2, hJ1, hJ2⟩ := splitLines_append_no_nl name hnnl a
        rw [hI1] at hJ2
        have e1 : (I ++ [last]).getLast? = some last := List.getLast?_concat _
        have e2 : (I2 ++ [last2 ++ name]).getLast? = some (last2 ++ name) :=
          List.getLast?_concat _
        rw [← hJ2] at e2
        rw [e1] at e2
        have hlast_eq : last = last2 ++ name := Option.some.inj e2
        intro hnil
        obtain ⟨c, hc, hcf⟩ := hnonsp
        have := (lstrip_eq_nil_iff _).mp hnil c (by
          rw [hlast_eq]
          exact List.mem_append_right last2 hc)
        rw [this] at hcf
        cases hcf
      constructor
      · rw [hres, hs, hI1, hI2]
        simp
      · rw [lineMass, lineMass, hres, hs, hI1, hI2]
        rw [List.map_append, List.map_append, List.sum_append, List.sum_append]
        simp only [List.map_cons, List.map_nil, List.sum_cons, List.sum_nil]
        have hlen2 : (lstrip (last ++ tail)).length = (lstrip last).length + tail.length := by
          rw [lstrip_append_of_ne_nil last tail hlast]
          simp
        have htlen : 1 ≤ tail.length := by
          cases tail with
          | nil => exact absurd rfl htne
          | cons x xs => simp
        omega

theorem stripDecorator_lines_le (name : Str)
    (hnonsp : ∃ c ∈ name, isSpaceChar c = false) (hnnl : nlChar ∉ name) (s : Str) :
    (splitLines (stripDecorator name s)).length ≤ (splitLines s).length := by
  rcases stripDecorator_measure name hnonsp hnnl s with h | h | h
  · rw [h]
  · omega
  · omega

theorem fixSyntaxIssues_id_of_phi_eq (s : Str)
    (h : phiLines (fixSyntaxIssues s) = phiLines s) : fixSyntaxIssues s = s := by
  obtain ⟨s1, hs1⟩ : ∃ x, x = stripDecorator (strOf "@property") s := ⟨_, rfl⟩
  obtain ⟨s2, hs2⟩ : ∃ x, x = stripDecorator (strOf "@staticmethod") s1 := ⟨_, rfl⟩
  obtain ⟨s3, hs3⟩ : ∃ x, x = stripDecorator (strOf "@classmethod") s2 := ⟨_, rfl⟩
  obtain ⟨s4, hs4⟩ : ∃ x,
    x = pyReplace (strOf "if __main__ ==") (strOf "if __name__ ==") s3 := ⟨_, rfl⟩
  obtain ⟨s5, hs5⟩ : ∃ x, x = pyReplace (strOf "list ") [] s4 := ⟨_, rfl⟩
  obtain ⟨s6, hs6⟩ : ∃ x, x = pyReplace (strOf "dict ") [] s5 := ⟨_, rfl⟩
  obtain ⟨s7, hs7⟩ : ∃ x,
    x = pyReplace (strOf "L_plus_del") (strOf "Exception") s6 := ⟨_, rfl⟩
  have hdef : fixSyntaxIssues s = s7 := by
    rw [hs7, hs6, hs5, hs4, hs3, hs2, hs1]
    rfl
  have hphMain : ∀ c, (strOf "if __main__ ==").head? = some c → isSpaceChar c = false := by
    intro c hc
    rw [show (strOf "if __main__ ==").head? = some 'i' from rfl] at hc
    injection hc with h2
    rw [← h2]
    decide
  have hrhMain : ∀ c, (strOf "if __name__ ==").head? = some c → isSpaceChar c = false := by
    intro c hc
    rw [show (strOf "if __name__ ==").head? = some 'i' from rfl] at hc
    injection hc with h2
    rw [← h2]
    decide
  have hphList : ∀ c, (strOf "list ").head? = some c → isSpaceChar c = false := by
    intro c hc
    rw [show (strOf "list ").head? = some 'l' from rfl] at hc
    injection hc with h2
    rw [← h2]
    decide
  have hphDict : ∀ c, (strOf "dict ").head? = some c → isSpaceChar c = false := by
    intro c hc
    rw [show (strOf "dict ").head? = some 'd' from rfl] at hc
    injection hc with h2
    rw [← h2]
    decide
  have hphL : ∀ c, (strOf "L_plus_del").head? = some c → isSpaceChar c = false := by
    intro c hc
    rw [show (strOf "L_plus_del").head? = some 'L' from rfl] at hc
    injection hc with h2
    rw [← h2]
    decide
  have hrhExc : ∀ c, (strOf "Exception").head? = some c → isSpaceChar c = false := by
    intro c hc
    rw [show (strOf "Exception").head? = some 'E' from rfl] at hc
    injection hc with h2
    rw [← h2]
    decide
  have hlen0 : (splitLines (fixSyntaxIssues s)).length = (splitLines s).length := by
    have h2 := congrArg List.length h
    rw [phiLines_length, phiLines_length] at h2
    exact h2
  have hmass0 : lineMass (fixSyntaxIssues s) = lineMass s := by
    rw [lineMass_eq_phi, lineMass_eq_phi]
    exact congrArg (fun l => (l.map List.length).sum) h
  rw [hdef] at hlen0 hmass0
  have L1 := stripDecorator_lines_le (strOf "@property") (by decide) (by decide) s
  rw [← hs1] at L1
  have L2 := stripDecorator_lines_le (strOf "@staticmethod") (by decide) (by decide) s1
  rw [← hs2] at L2
  have L3 := stripDecorator_lines_le (strOf "@classmethod") (by decide) (by decide) s2
  rw [← hs3] at L3
  have L4 : (splitLines s4).length = (splitLines s3).length := by
    rw [hs4]
    exact py_lines_len _ _ (by decide) (by decide) (by decide) s3
  have L5 : (splitLines s5).length = (splitLines s4).length := by
    rw [hs5]
    exact py_lines_len _ _ (by decide) (by decide) (by decide) s4
  have L6 : (splitLines s6).length = (splitLines s5).length := by
    rw [hs6]
    exact py_lines_len _ _ (by decide) (by decide) (by decide) s5
  have L7 : (splitLines s7).length = (splitLines s6).length := by
    rw [hs7]
    exact py_lines_len _ _ (by decide) (by decide) (by decide) s6
  have M4le : lineMass s4 ≤ lineMass s3 := by
    rw [hs4]
    exact lineMass_pyReplace_le _ _ (by decide) (by decide) (by decide) hphMain
      (by decide) s3
  have M5le : lineMass s5 ≤ lineMass s4 := by
    rw [hs5]
    exact lineMass_pyReplace_le _ _ (by decide) (by decide) (by decide) hphList
      (by decide) s4
  have M6le : lineMass s6 ≤ lineMass s5 := by
    rw [hs6]
    exact lineMass_pyReplace_le _ _ (by decide) (by decide) (by decide) hphDict
      (by decide) s5
  have M7le : lineMass s7 ≤ lineMass s6 := by
    rw [hs7]
    exact lineMass_pyReplace_le _ _ (by decide) (by decide) (by decide) hphL
      (by decide) s6
  have D1 := stripDecorator_measure (strOf "@property") (by decide) (by decide) s
  rw [← hs1] at D1
  have D2 := stripDecorator_measure (strOf "@staticmethod") (by decide) (by decide) s1
  rw [← hs2] at D2
  have D3 := stripDecorator_measure (strOf "@classmethod") (by decide) (by decide) s2
  rw [← hs3] at D3
  have E1 : s1 = s ∨ lineMass s1 < lineMass s := by
    rcases D1 with hcase | hcase | hcase
    · left; exact hcase
    · exfalso; omega
    · right; exact hcase.2
  have E1le : lineMass s1 ≤ lineMass s := by
    rcases E1 with hcase | hcase
    · rw [hcase]
    · omega
  have E2 : s2 = s1 ∨ lineMass s2 < lineMass s1 := by
    rcases D2 with hcase | hcase | hcase
    · left; exact hcase
    · exfalso; omega
    · right; exact hcase.2
  have E2le : lineMass s2 ≤ lineMass s1 := by
    rcases E2 with hcase | hcase
    · rw [hcase]
    · omega
  have E3 : s3 = s2 ∨ lineMass s3 < lineMass s2 := by
    rcases D3 with hcase | hcase | hcase
    · left; exact hcase
    · exfalso; omega
    · right; exact hcase.2
  have E3le : lineMass s3 ≤ lineMass s2 := by
    rcases E3 with hcase | hcase
    · rw [hcase]
    · omega
  have hid1 : s1 = s := by
    rcases E1 with hcase | hcase
    · exact hcase
    · exfalso; omega
  have hid2 : s2 = s1 := by
    rcases E2 with hcase | hcase
    · exact hcase
    · exfalso; omega
  have hid3 : s3 = s2 := by
    rcases E3 with hcase | hcase
    · exact hcase
    · exfalso; omega
  have hid5 : s5 = s4 := by
    rw [hs5]
    refine pyReplace_del_id _ _ (by decide) (by decide) (by decide) hphList
      (by decide) s4 ?_
    rw [← hs5]
    omega
  have hid6 : s6 = s5 := by
    rw [hs6]
    refine pyReplace_del_id _ _ (by decide) (by decide) (by decide) hphDict
      (by decide) s5 ?_
    rw [← hs6]
    omega
  have hid7 : s7 = s6 := by
    rw [hs7]
    refine pyReplace_del_id _ _ (by decide) (by decide) (by decide) hphL
      (by decide) s6 ?_
    rw [← hs7]
    omega
  have hs3s : s3 = s := by rw [hid3, hid2, hid1]
  rw [hdef, hid7, hid6, hid5, hs4, hs3s] at h
  have hmain : pyReplace (strOf "if __main__ ==") (strOf "if __name__ ==") s = s :=
    pyReplace_main_id _ _ (by decide) (by decide) (by decide) hphMain (by decide)
      hrhMain s h
  rw [hdef, hid7, hid6, hid5, hs4, hs3s, hmain]

/-- If the full normalization returns its input, the syntax fix-up pass
alone already returned its input: `_fix_indentation` preserves the
per-line lstripped contents, and a `_fix_syntax_issues` pass that
changes anything changes those contents. -/
theorem fixSyntax_id_of_normalize_id (y : Str)
    (h : fixIndentation (fixSyntaxIssues y) = y) : fixSyntaxIssues y = y := by
  apply fixSyntaxIssues_id_of_phi_eq
  have h2 := congrArg phiLines h
  rw [phi_fixIndentation] at h2
  exact h2

/-! ## The round trip through the default mapping on token texts -/

/-- `to_python` after `from_python` (the composite of claim C2). -/
def roundTrip (mapping : List (Str × Str)) (pats : List SpecialPattern) (code : Str) :
    Except Unit Str :=
  match fromPython mapping pats code with
  | .error e => .error e
  | .ok y => toPython mapping pats y

/-- The canonical tokens of the default mapping whose reverse mapping is
one-to-one, minus `list` and `dict` (whose forward fix-ups delete them
when followed by a space): the token alphabet of the amended round-trip
claim. -/
def roundTokens : List Str :=
  [strOf "def", strOf "class", strOf "import", strOf "return", strOf "print",
   strOf "for", strOf "if", strOf "else", strOf "while", strOf "try",
   strOf "except", strOf "lambda", strOf "with", strOf "pass", strOf "None",
   strOf "self", strOf "object", strOf "in", strOf "yield", strOf "super",
   strOf "raise", strOf "break", strOf "continue", strOf "from", strOf "as",
   strOf "assert", strOf "exit", strOf "not", strOf "nonlocal", strOf "global",
   strOf "__main__", strOf "__init__", strOf "finally", strOf "isinstance",
   strOf "issubclass", strOf "property", strOf "staticmethod",
   strOf "classmethod", strOf "abstractmethod", strOf "Exception",
   strOf "ValueError", strOf "TypeError", strOf "KeyError", strOf "IndexError"]

/-- The canonical tokens of the default mapping whose reverse mapping is
one-to-one, as claim C2 states its hypothesis (`True` and `False` have
colliding reverse entries and are excluded). -/
def oneToOneTokens : List Str := roundTokens ++ [strOf "list", strOf "dict"]

/-- C1: for every input text, concatenating in order the contents of
all segments returned by the String-Literal Splitter
(`_split_by_strings`) yields a string equal to the input text
exactly. -/
theorem c1_split_lossless (code : Str) : (splitByStrings code).flatten = code :=
  flatten_splitByStrings code

/-- C2: counterexample.  The text `list None` consists only of
registered canonical tokens whose reverse mapping is one-to-one
(`glizzy → list`, `npc → None` are the sole custom keywords for them)
and has no literal segments, yet `to_python (from_python x) ≠ x`: under
the full default mapping the reverse special-pattern stage raises, and
even with the special-pattern table emptied the round trip returns
`None` because `_fix_syntax_issues` deletes the substring `list `. -/
theorem c2_counterexample :
    joinSpace [strOf "list", strOf "None"] = strOf "list None" ∧
    strOf "list" ∈ oneToOneTokens ∧ strOf "None" ∈ oneToOneTokens ∧
    roundTrip defaultKeywords defaultSpecialPatterns (strOf "list None") ≠
      .ok (strOf "list None") ∧
    roundTrip defaultKeywords [] (strOf "list None") = .ok (strOf "None") := by
  refine ⟨rfl, by decide, by decide, ?_, rfl⟩
  have h : roundTrip defaultKeywords defaultSpecialPatterns (strOf "list None") =
      .error () := rfl
  rw [h]
  intro hx
  cases hx

set_option maxHeartbeats 4000000

/-- C2 (amended): with the special-pattern table empty (the default
table makes `from_python` raise before keyword work is reached) and the
token alphabet restricted to the canonical tokens whose reverse mapping
is one-to-one and which no `_fix_syntax_issues` rule touches (`True`
and `False` are excluded by the one-to-one hypothesis; `list` and
`dict` are deleted by the fix-up when followed by a space), the round
trip is the identity on every nonempty single-space-joined token
sequence: `to_python (from_python x) = x`. -/
theorem c2_roundtrip_amended (toks : List Str) (h0 : toks ≠ [])
    (htk : ∀ t ∈ toks, t ∈ roundTokens) :
    roundTrip defaultKeywords [] (joinSpace toks) = .ok (joinSpace toks) := by
  have hrt : ∀ t ∈ roundTokens, wfTok t = true := by decide
  have hRkv : ∀ kv ∈ sortByLenDesc (buildReverse defaultKeywords),
      wfTok kv.1 = true ∧ wfTok kv.2 = true := by decide
  have hFkv : ∀ kv ∈ sortByLenDesc defaultKeywords,
      wfTok kv.1 = true ∧ wfTok kv.2 = true := by decide
  have hmapw : ∀ t ∈ roundTokens,
      wfTok (tokChain (sortByLenDesc (buildReverse defaultKeywords)) t) = true := by decide
  have hround : ∀ t ∈ roundTokens,
      tokChain (sortByLenDesc defaultKeywords)
        (tokChain (sortByLenDesc (buildReverse defaultKeywords)) t) = t := by decide
  have hfixT : ∀ t ∈ roundTokens, ¬(strOf "list" <:+ t) ∧ ¬(strOf "dict" <:+ t) ∧
      containsSub (strOf "L_plus_del") t = false := by decide
  have hwf : ∀ t ∈ toks, wfTok t = true := fun t ht => hrt t (htk t ht)
  have hsplit1 : splitByStrings (joinSpace toks) = [joinSpace toks] :=
    splitByStrings_noQuote _ (joinSpace_noQuote toks hwf)
  have hfromEq : fromPython defaultKeywords [] (joinSpace toks) =
      .ok (joinSpace (toks.map (tokChain (sortByLenDesc (buildReverse defaultKeywords))))) := by
    unfold fromPython
    rw [hsplit1]
    have hm : (mapEvenIdx (applyKeywordsSorted (sortByLenDesc (buildReverse defaultKeywords)))
        [joinSpace toks]).flatten =
        applyKeywordsSorted (sortByLenDesc (buildReverse defaultKeywords)) (joinSpace toks) := by
      simp [mapEvenIdx]
    rw [hm, applyKeywordsSorted_joinSpace _ toks hRkv hwf]
    exact reverseSpecialPatterns_nilPats _
  have hwf2 : ∀ t ∈ toks.map (tokChain (sortByLenDesc (buildReverse defaultKeywords))),
      wfTok t = true := by
    intro t ht
    rw [List.mem_map] at ht
    obtain ⟨a, ha, rfl⟩ := ht
    exact hmapw a (htk a ha)
  have hsplit2 : splitByStrings
      (joinSpace (toks.map (tokChain (sortByLenDesc (buildReverse defaultKeywords))))) =
      [joinSpace (toks.map (tokChain (sortByLenDesc (buildReverse defaultKeywords))))] :=
    splitByStrings_noQuote _ (joinSpace_noQuote _ hwf2)
  have hkw : applyKeywordReplacements defaultKeywords
      (joinSpace (toks.map (tokChain (sortByLenDesc (buildReverse defaultKeywords))))) =
      joinSpace toks := by
    unfold applyKeywordReplacements
    rw [hsplit2]
    have hm2 : (mapEvenIdx (applyKeywordsSorted (sortByLenDesc defaultKeywords))
        [joinSpace (toks.map (tokChain (sortByLenDesc (buildReverse defaultKeywords))))]).flatten =
        applyKeywordsSorted (sortByLenDesc defaultKeywords)
          (joinSpace (toks.map (tokChain (sortByLenDesc (buildReverse defaultKeywords))))) := by
      simp [mapEvenIdx]
    rw [hm2, applyKeywordsSorted_joinSpace _ _ hFkv hwf2]
    rw [map_map_id_of_mem (tokChain (sortByLenDesc defaultKeywords))
      (tokChain (sortByLenDesc (buildReverse defaultKeywords))) roundTokens hround toks htk]
  have hfixS : fixSyntaxIssues (joinSpace toks) = joinSpace toks :=
    fixSyntaxIssues_joinSpace toks hwf (fun t ht => hfixT t (htk t ht))
  have hfixI : fixIndentation (joinSpace toks) = joinSpace toks :=
    fixIndentation_joinSpace toks h0 hwf
  have htoEq : toPython defaultKeywords []
      (joinSpace (toks.map (tokChain (sortByLenDesc (buildReverse defaultKeywords))))) =
      .ok (joinSpace toks) := by
    unfold toPython
    have hsp : applySpecialPatterns []
        (joinSpace (toks.map (tokChain (sortByLenDesc (buildReverse defaultKeywords))))) =
        .ok (joinSpace (toks.map (tokChain (sortByLenDesc (buildReverse defaultKeywords))))) :=
      rfl
    rw [hsp]
    show Except.ok (fixIndentation (fixSyntaxIssues (applyKeywordReplacements defaultKeywords
      (joinSpace (toks.map (tokChain (sortByLenDesc (buildReverse defaultKeywords)))))))) = _
    rw [hkw, hfixS, hfixI]
  unfold roundTrip
  rw [hfromEq]
  show toPython defaultKeywords []
    (joinSpace (toks.map (tokChain (sortByLenDesc (buildReverse defaultKeywords))))) = _
  exact htoEq

theorem c2_roundtrip_amended_witness :
    ([strOf "if", strOf "None"] : List Str) ≠ [] ∧
    (∀ t ∈ ([strOf "if", strOf "None"] : List Str), t ∈ roundTokens) ∧
    roundTrip defaultKeywords [] (joinSpace [strOf "if", strOf "None"]) =
      .ok (joinSpace [strOf "if", strOf "None"]) :=
  ⟨by decide, by decide,
    c2_roundtrip_amended [strOf "if", strOf "None"] (by decide) (by decide)⟩

/-- C3: with the keyword `rizz → return`, keyword substitution leaves
the quoted literal `"rizz"` unchanged while occurrences outside quotes
are replaced; in general, the odd-indexed (LITERAL) segments of the
split pass through `_apply_keyword_replacements` unmodified. -/
theorem c3_literal_immunity :
    applyKeywordReplacements [(strOf "rizz", strOf "return")] (strOf "x = \"rizz\"") =
        strOf "x = \"rizz\"" ∧
    applyKeywordReplacements [(strOf "rizz", strOf "return")] (strOf "rizz = \"rizz\"") =
        strOf "return = \"rizz\"" ∧
    ∀ (mapping : List (Str × Str)) (code : Str) (i : Nat),
      (mapEvenIdx (applyKeywordsSorted (sortByLenDesc mapping))
          (splitByStrings code))[2 * i + 1]? =
        (splitByStrings code)[2 * i + 1]? := by
  refine ⟨by rfl, by rfl, ?_⟩
  intro mapping code i
  exact mapEvenIdx_getElem_odd _ (splitByStrings code) i

/-- C4: with keywords `cap → False` and `no_cap → True`, the forward
substitution of `no_cap` produces `True` and never `noFalse`; keywords
are processed in descending length order: the prepared keyword list of
`_prepare_patterns` is always sorted by non-increasing key length, so a
longer keyword is substituted before any shorter one. -/
theorem c4_longest_match :
    applyKeywordReplacements [(strOf "cap", strOf "False"), (strOf "no_cap", strOf "True")]
        (strOf "no_cap") = strOf "True" ∧
    applyKeywordReplacements [(strOf "cap", strOf "False"), (strOf "no_cap", strOf "True")]
        (strOf "no_cap") ≠ strOf "noFalse" ∧
    ∀ mapping : List (Str × Str),
      List.Pairwise (fun a b : Str × Str => b.1.length ≤ a.1.length)
        (sortByLenDesc mapping) := by
  refine ⟨by rfl, by decide, ?_⟩
  intro mapping
  exact sortByLenDesc_pairwise mapping

/-- C5: with the default special pattern `slide\s+into\s+(\w+)` and
template `import \1`, `to_python` transforms `slide into os` into
`import os`: the capture is substituted into the template, before
keyword substitution. -/
theorem c5_special_capture :
    toPython defaultKeywords defaultSpecialPatterns (strOf "slide into os") =
      .ok (strOf "import os") := by rfl

/-- C6: the claim says the reverse transform strips capture
placeholders from the template and reconstructs the custom phrase; the
code instead escapes the template whole (placeholder included) and, for
default patterns, parses the raw pattern source as a replacement
template — which raises `re.error` (bad escape `\s`) before anything
can match, so canonical text such as `import os` is never turned back
into `slide into os`. -/
theorem c6_reverse_bad_escape :
    reverseSpecialPatterns defaultSpecialPatterns (strOf "import os") = .error () := by
  rfl

/-- C7: in the reverse capture branch (pattern source containing a
backreference), the referenced group index always exceeds the zero
groups of the escaped-literal reverse pattern; the transform does not
raise, substitutes the empty string for the missing capture, and
returns a result for every input. -/
theorem c7_graceful_degradation :
    (∀ (pats : List SpecialPattern) (code : Str),
      (∀ p ∈ pats, (findBackref p.src).isSome) →
      ∃ r, reverseSpecialPatterns pats code = .ok r) ∧
    reverseSpecialPatterns [⟨strOf "(\\w+)\\1", [.grp, .backref 1], strOf "z"⟩]
      (strOf "z") = .ok (strOf "(\\w+)") := by
  constructor
  · intro pats code hp
    obtain ⟨l2, hl2⟩ := mapEvenIdxE_ok (reverseOnPart pats)
      (reverseOnPart_ok pats hp) (splitByStrings code)
    exact ⟨l2.flatten, by rw [reverseSpecialPatterns, hl2]⟩
  · rfl

/-- C7 witness: the no-raise guarantee applied to a concrete pattern
table (source `(\w+)\1`, template `z`) and concrete input. -/
theorem c7_graceful_degradation_witness :
    ∃ r, reverseSpecialPatterns [⟨strOf "(\\w+)\\1", [.grp, .backref 1], strOf "z"⟩]
      (strOf "a z b") = .ok r :=
  c7_graceful_degradation.1 _ _ (by decide)

/-- C8 counterexample: the claim derives the level from the number of
leading *space* characters, but the code counts all leading whitespace
(`len(line) - len(line.lstrip())`): on the line of 3 spaces and a tab,
the code emits 4 leading spaces while the claim's rule emits none. -/
theorem c8_counterexample :
    fixIndentation (strOf "   \tx") = strOf "    x" ∧
    fixIndentationSpecModel (strOf "   \tx") = strOf "x" ∧
    fixIndentation (strOf "   \tx") ≠ fixIndentationSpecModel (strOf "   \tx") := by
  refine ⟨by rfl, by rfl, by decide⟩

/-- C8 amended: for every line, the number of leading *whitespace*
characters is integer-divided by 4 (truncating: five leading spaces
re-emit as four), and the output line is that many 4-space units
followed by the line with its leading whitespace removed. -/
theorem c8_indent_amended :
    (∀ code, fixIndentation code =
      joinLines ((splitLines code).map (fun l =>
        (List.replicate ((l.takeWhile isSpaceChar).length / 4) (strOf "    ")).flatten ++
          l.dropWhile isSpaceChar))) ∧
    fixIndentation (strOf "     x") = strOf "    x" := by
  constructor
  · intro code
    rw [fixIndentation]
    congr 1
    apply List.map_congr_left
    intro l _
    rw [fixIndentLine, length_sub_lstrip]
    rfl
  · rfl

/-- C9 counterexample: normalization is not idempotent: the `list `
deletion of `_fix_syntax_issues` can create a fresh `list ` occurrence
(replacements are not rescanned), so `llist ist ` normalizes to
`list `, which a second pass deletes entirely. -/
theorem c9_counterexample :
    fixIndentation (fixSyntaxIssues (fixIndentation (fixSyntaxIssues (strOf "llist ist ")))) ≠
      fixIndentation (fixSyntaxIssues (strOf "llist ist ")) := by decide

/-- C9 amended: the indentation stage `_fix_indentation` is idempotent
for every input, and the combined normalization (syntax fix-ups then
indentation) is idempotent exactly on those inputs where a second
`_fix_syntax_issues` pass leaves the first normalized output unchanged
(both directions of the equivalence hold). -/
theorem c9_normalize_amended :
    (∀ code, fixIndentation (fixIndentation code) = fixIndentation code) ∧
    (∀ code,
      fixIndentation (fixSyntaxIssues (fixIndentation (fixSyntaxIssues code))) =
          fixIndentation (fixSyntaxIssues code) ↔
      fixSyntaxIssues (fixIndentation (fixSyntaxIssues code)) =
          fixIndentation (fixSyntaxIssues code)) := by
  constructor
  · exact fixIndentation_idem
  · intro code
    constructor
    · intro h
      exact fixSyntax_id_of_normalize_id _ h
    · intro h
      rw [h]
      exact fixIndentation_idem (fixSyntaxIssues code)

/-- C9 witness: the equivalence applied at the concrete stable input
`x`, in the direction producing idempotence. -/
theorem c9_normalize_amended_witness :
    fixIndentation (fixSyntaxIssues (fixIndentation (fixSyntaxIssues (strOf "x")))) =
      fixIndentation (fixSyntaxIssues (strOf "x")) :=
  (c9_normalize_amended.2 (strOf "x")).mpr (by rfl)

/-- C10: the claim says `from_python` rewrites only CODE segments and
hence preserves every string literal in its output; but with the
default mapping `from_python` produces no output at all: the reverse
special-pattern stage parses the replacement template `no\s+shot`
eagerly and raises `re.error` (bad escape `\s`) on every input. -/
theorem c10_from_python_raises :
    fromPython defaultKeywords defaultSpecialPatterns (strOf "x = \"hi\"") =
      .error () := by rfl

end Transpiler
